import Mathlib

/-!
# Verification of the go-slim expression VM (`vm/parser.go`)

This file gives a shallow embedding of the go-slim expression language:
the goyacc-generated LALR parser (its tables `yyAct`, `yyPact`, `yyChk`,
`yyDef`, `yyExca`, `yyPgo`, `yyR1`, `yyR2` and the driver `yyParse` are
transcribed verbatim from `vm/parser.go`), the AST (`Expr`), and the
evaluator `VM.Eval` together with `deref` / `evalAndDerefRv` and
`VM.Compile`.

Go runtime values that the evaluator manipulates through `reflect` are
modelled by the inductive type `GoVal`; 64-bit floats are modelled as
exact rationals extended with the IEEE special values `+Inf`, `-Inf`,
`NaN` (rounding is not modelled; none of the verified properties depend
on rounding).  Go `panic`s (runtime faults that are not returned as
ordinary `error` values) are modelled by the `EvalRes.fatal` outcome,
ordinary `(nil, err)` returns by `EvalRes.errv`.
-/

/-- Model of a Go `float64`: an exact rational, or one of the IEEE-754
special values.  Arithmetic on finite values is exact (no rounding);
the special values follow IEEE-754 rules. -/
inductive FloatV where
  | fin (q : ℚ)
  | inf
  | ninf
  | nan
deriving DecidableEq, Repr

namespace FloatV

/-- IEEE-754 style addition on the float model. -/
def fadd : FloatV → FloatV → FloatV
  | fin a, fin b => fin (a + b)
  | fin _, inf => inf
  | fin _, ninf => ninf
  | inf, fin _ => inf
  | ninf, fin _ => ninf
  | inf, inf => inf
  | ninf, ninf => ninf
  | inf, ninf => nan
  | ninf, inf => nan
  | _, _ => nan

/-- IEEE-754 style subtraction on the float model. -/
def fsub : FloatV → FloatV → FloatV
  | fin a, fin b => fin (a - b)
  | fin _, inf => ninf
  | fin _, ninf => inf
  | inf, fin _ => inf
  | ninf, fin _ => ninf
  | inf, ninf => inf
  | ninf, inf => ninf
  | inf, inf => nan
  | ninf, ninf => nan
  | _, _ => nan

/-- IEEE-754 style multiplication on the float model. -/
def fmul : FloatV → FloatV → FloatV
  | fin a, fin b => fin (a * b)
  | fin a, inf => if a > 0 then inf else if a < 0 then ninf else nan
  | fin a, ninf => if a > 0 then ninf else if a < 0 then inf else nan
  | inf, fin b => if b > 0 then inf else if b < 0 then ninf else nan
  | ninf, fin b => if b > 0 then ninf else if b < 0 then inf else nan
  | inf, inf => inf
  | ninf, ninf => inf
  | inf, ninf => ninf
  | ninf, inf => ninf
  | _, _ => nan

/-- IEEE-754 style division on the float model: division of a nonzero
finite value by zero gives a signed infinity, `0/0` gives `NaN`. -/
def fdiv : FloatV → FloatV → FloatV
  | fin a, fin b =>
    if b = 0 then (if a > 0 then inf else if a < 0 then ninf else nan)
    else fin (a / b)
  | fin _, inf => fin 0
  | fin _, ninf => fin 0
  | inf, fin b => if b < 0 then ninf else inf
  | ninf, fin b => if b < 0 then inf else ninf
  | _, _ => nan

end FloatV

/-- Model of the Go runtime values (`interface{}`) that flow through the
evaluator: the scalar kinds the lexer and the arithmetic case analysis
distinguish, `error`-typed values, pointer and interface indirection
layers (`…Nil` is the nil pointer / nil interface), structs (with their
fields and the names of the methods in the value-receiver and
pointer-receiver method sets, each naming a function id in an external
function table), `map[string]…` maps, slices, and functions (by id into
the external function table). -/
inductive GoVal where
  | vnil
  | vbool (b : Bool)
  | vint (n : ℤ)
  | vint32 (n : ℤ)
  | vint64 (n : ℤ)
  | vfloat32 (x : FloatV)
  | vfloat64 (x : FloatV)
  | vstring (s : String)
  | verr (msg : String)
  | vptrNil
  | vptr (v : GoVal)
  | vifaceNil
  | viface (v : GoVal)
  | vstruct (fields : List (String × GoVal))
      (vmeths : List (String × Nat)) (pmeths : List (String × Nat))
  | vmap (entries : List (String × GoVal))
  | vslice (elems : List GoVal)
  | vfunc (fid : Nat)
deriving Repr

/-- Association-list lookup, modelling Go map / field-list access by name. -/
def alookup {α : Type} (l : List (String × α)) (k : String) : Option α :=
  match l with
  | [] => none
  | (k', v) :: rest => if k' = k then some v else alookup rest k

/-- The decimal digit character for `d` (`0 ≤ d ≤ 9`). -/
def digitChar (d : Nat) : Char := Char.ofNat (48 + d)

/-- Fueled computation of the decimal digits of `n`, least significant
first (`[]` for `0`); structural recursion on the fuel keeps the
definition kernel-computable, and fuel `n` never runs out. -/
def natDigitsRevF : Nat → Nat → List Nat
  | 0, _ => []
  | fuel + 1, n => if n = 0 then [] else (n % 10) :: natDigitsRevF fuel (n / 10)

/-- The decimal digits of `n`, least significant first (`[]` for `0`). -/
def natDigitsRev (n : Nat) : List Nat := natDigitsRevF n n

/-- The decimal digit characters of `n`, most significant first. -/
def natDecimal (n : Nat) : List Char :=
  if n = 0 then ['0'] else ((natDigitsRev n).reverse.map digitChar)

/-- Decimal representation of an integer, as produced by Go's `%d` /
default formatting of integers. -/
def intDecimal (n : ℤ) : String :=
  if n < 0 then "-" ++ String.mk (natDecimal n.natAbs)
  else String.mk (natDecimal n.natAbs)

/-- The numeric value of a big-endian digit list. -/
def digitsVal (ds : List Nat) : Nat :=
  ds.foldl (fun a d => 10 * a + d) 0

/-- Decimal representation of a finite float value `n / 10^m`:
digits of `n` with a decimal point inserted `m` places from the right. -/
def pointedDecimal (n : ℤ) (m : Nat) : String :=
  if m = 0 then intDecimal n
  else
    let ds := natDecimal n.natAbs
    let ds := (List.replicate (m + 1 - ds.length) '0') ++ ds
    let ip := ds.take (ds.length - m)
    let fp := ds.drop (ds.length - m)
    (if n < 0 then "-" else "") ++ String.mk ip ++ "." ++ String.mk fp

/-- Default string form of a float value, modelling Go's `%v` formatting
of `float64` for values with a finite decimal expansion (the only float
values the embedded language can produce from source text).  Values
whose denominator is not of the form `2^a·5^b` cannot arise from Go
`float64` data and get a placeholder form. -/
def floatRepr : FloatV → String
  | .nan => "NaN"
  | .inf => "+Inf"
  | .ninf => "-Inf"
  | .fin q =>
    match (List.range 80).find? (fun m => ((q * (10 : ℚ) ^ m) : ℚ).den = 1) with
    | some m => pointedDecimal ((q * (10 : ℚ) ^ m) : ℚ).num m
    | none => "<float>"

/-- Space-separated concatenation, as in Go's compound-value printing. -/
def joinSpace : List String → String
  | [] => ""
  | [s] => s
  | s :: rest => s ++ " " ++ joinSpace rest

mutual

/-- Model of `fmt.Sprint` on a single value: the default string form Go
gives to a value.  Scalar kinds are exact; a pointer is printed as its
referent prefixed with `&` (Go does this for struct pointers and prints
an unknowable address otherwise); the iteration order of map entries is
taken to be the model's list order. -/
def sprint : GoVal → String
  | .vnil => "<nil>"
  | .vbool b => if b then "true" else "false"
  | .vint n => intDecimal n
  | .vint32 n => intDecimal n
  | .vint64 n => intDecimal n
  | .vfloat32 x => floatRepr x
  | .vfloat64 x => floatRepr x
  | .vstring s => s
  | .verr m => m
  | .vptrNil => "<nil>"
  | .vptr v => "&" ++ sprint v
  | .vifaceNil => "<nil>"
  | .viface v => sprint v
  | .vstruct fs _ _ => "\x7b" ++ joinSpace (sprintFields fs) ++ "\x7d"
  | .vmap es => "map[" ++ joinSpace (sprintEntries es) ++ "]"
  | .vslice xs => "[" ++ joinSpace (sprintList xs) ++ "]"
  | .vfunc _ => "<func>"

/-- `sprint` over a list of values (for slices). -/
def sprintList : List GoVal → List String
  | [] => []
  | v :: vs => sprint v :: sprintList vs

/-- `sprint` over struct fields (values only, as Go prints structs). -/
def sprintFields : List (String × GoVal) → List String
  | [] => []
  | (_, v) :: fs => sprint v :: sprintFields fs

/-- `sprint` over map entries (`key:value`, as Go prints maps). -/
def sprintEntries : List (String × GoVal) → List String
  | [] => []
  | (k, v) :: es => (k ++ ":" ++ sprint v) :: sprintEntries es

end

/-- The AST node variants of `vm/expr.go` (`Expr` is an interface in Go;
`enil` is the nil interface value, which `VM.Eval`'s type switch sends to
the default `return nil, nil` branch). -/
inductive Expr where
  | enil
  | IdentExpr (name : String)
  | LitExpr (value : GoVal)
  | BinOpExpr (op : String) (lhs rhs : Expr)
  | CallExpr (name : String) (exprs : List Expr)
  | MethodCallExpr (lhs : Expr) (name : String) (exprs : List Expr)
  | MemberExpr (lhs : Expr) (name : String)
  | ItemExpr (lhs : Expr) (index : Expr)
  | ForExpr (var1 var2 : String) (expr : Expr)

/-- `yySymType` from `vm/parser.go` (without the `yys` state field, which
the parser stack carries separately). -/
structure SymVal where
  expr : Expr := Expr.enil
  exprs : List Expr := []
  str : String := ""
  lit : GoVal := GoVal.vnil

/-- A lexed token: the character/token code the lexer returns to the
parser driver, together with the semantic value it stored in `lval`. -/
structure ChTok where
  ch : Int
  lval : SymVal := {}

/-- Token code constants from `vm/parser.go`. -/
def IDENT : Int := 57346

/-- Token code constants from `vm/parser.go`. -/
def LIT : Int := 57347

/-- Token code constants from `vm/parser.go`. -/
def FOR : Int := 57348

/-- Token code constants from `vm/parser.go`. -/
def IN : Int := 57349

/-- Whitespace predicate of the token scanner. -/
def isWS (c : Char) : Bool := c = ' ' ∨ c = '\t' ∨ c = '\n' ∨ c = '\r'

/-- Identifier-start predicate (letter or underscore). -/
def isIdentStart (c : Char) : Bool := c.isAlpha ∨ c = '_'

/-- Identifier-continuation predicate (letter, digit or underscore). -/
def isIdentCont (c : Char) : Bool := c.isAlphanum ∨ c = '_'

/-- Value of an integer literal: `Modelled from the spec:` the lexer
(`vm/lexer.go` is not under `src/`): a decimal integer literal is
inferred as a 64-bit signed integer (the spec's "both operands are
parsed as 64-bit signed integers"); values beyond the `int64` range are
clamped as `strconv.ParseInt` clamps on range error. -/
def intLitVal (ds : List Char) : GoVal :=
  let v := digitsVal (ds.map (fun c => c.toNat - 48))
  GoVal.vint64 (if v < 2 ^ 63 then (v : ℤ) else 2 ^ 63 - 1)

/-- Value of a float literal `ds.fs` as an exact rational. -/
def floatLitVal (ds fs : List Char) : GoVal :=
  let ip : ℚ := (digitsVal (ds.map (fun c => c.toNat - 48)) : ℚ)
  let fp : ℚ := (digitsVal (fs.map (fun c => c.toNat - 48)) : ℚ) / (10 : ℚ) ^ fs.length
  GoVal.vfloat64 (.fin (ip + fp))

/-- Number-token munch: given the integer digits `ds` already read and
the remaining characters `cs`, produce the literal token (a float
literal when a `.` followed by a digit follows, an integer literal
otherwise) and the unconsumed rest. -/
def munchNum (ds : List Char) (cs : List Char) : ChTok × List Char :=
  match cs with
  | '.' :: c2 :: rest2 =>
    if c2.isDigit then
      (⟨LIT, { lit := floatLitVal ds (c2 :: rest2.takeWhile Char.isDigit) }⟩,
        rest2.dropWhile Char.isDigit)
    else (⟨LIT, { lit := intLitVal ds }⟩, cs)
  | _ => (⟨LIT, { lit := intLitVal ds }⟩, cs)

theorem munchNum_rest_le (ds cs : List Char) :
    ((munchNum ds cs).2).length ≤ cs.length := by
  unfold munchNum
  split
  next c2 rest2 =>
    split
    · have h := (List.dropWhile_sublist (p := Char.isDigit) (l := rest2)).length_le
      simp
      omega
    · exact le_refl _
  next => exact le_refl _

/-- `Modelled from the spec:` the lexer (`vm/lexer.go` is not under
`src/`; §4.1 of the spec specifies it): produces classified tokens from
the character stream — identifiers (letter-start, alnum continuation)
with the keywords `for`/`in` recognized, decimal integer and float
literals, double-quoted string literals (no escape processing), and
single-character operator/punctuation tokens returned by character code;
whitespace is insignificant; an unrecognized character is passed through
by code and surfaces as a parser syntax error.  The recursion is fueled
(one unit of fuel per emitted token or skipped character) so that the
definition is kernel-computable. -/
def lexChars : Nat → List Char → List ChTok
  | 0, _ => []
  | _, [] => []
  | fuel + 1, c :: cs =>
    if isWS c then lexChars fuel cs
    else if c.isDigit then
      let mr := munchNum (c :: cs.takeWhile Char.isDigit) (cs.dropWhile Char.isDigit)
      mr.1 :: lexChars fuel mr.2
    else if isIdentStart c then
      let ids := c :: cs.takeWhile isIdentCont
      let rest := cs.dropWhile isIdentCont
      let s := String.mk ids
      (if s = "for" then (⟨FOR, { str := s }⟩ : ChTok)
       else if s = "in" then ⟨IN, { str := s }⟩
       else ⟨IDENT, { str := s }⟩) :: lexChars fuel rest
    else if c = '"' then
      let ss := cs.takeWhile (· ≠ '"')
      let rest := (cs.dropWhile (· ≠ '"')).drop 1
      ⟨LIT, { lit := GoVal.vstring (String.mk ss) }⟩ :: lexChars fuel rest
    else ⟨(c.toNat : Int), {}⟩ :: lexChars fuel cs

/-- The token stream of a character stream: `lexChars` with fuel equal
to the length, which cannot run out since every emitted token consumes
at least one character. -/
def lexAll (cs : List Char) : List ChTok := lexChars cs.length cs

/-- `yyExca` from `vm/parser.go`. -/
def yyExca : List Int := [-1, 1, 1, -1, -2, 0]

/-- `yyAct` from `vm/parser.go`. -/
def yyAct : List Int :=
  [26, 3, 31, 25, 37, 31, 14, 32, 29, 18,
   19, 20, 21, 15, 23, 16, 17, 27, 8, 9,
   10, 11, 12, 13, 30, 24, 8, 9, 10, 11,
   12, 13, 35, 34, 36, 8, 9, 10, 11, 12,
   13, 6, 4, 2, 6, 4, 5, 28, 33, 5,
   22, 7, 1]

/-- `yyPact` from `vm/parser.go`. -/
def yyPact : List Int :=
  [37, -1000, 47, 24, -1000, 40, 4, 8, 40, 40,
   40, 40, 46, 40, 15, 40, 40, 43, 24, 24,
   24, 24, -1, 7, -1000, -3, 24, 24, 41, 40,
   -1000, 40, -1000, 40, -6, 24, 24, -1000]

/-- `yyPgo` from `vm/parser.go`. -/
def yyPgo : List Int := [0, 52, 0, 3]

/-- `yyR1` from `vm/parser.go`. -/
def yyR1 : List Int :=
  [0, 1, 1, 1, 3, 3, 3, 2, 2, 2,
   2, 2, 2, 2, 2, 2, 2, 2]

/-- `yyR2` from `vm/parser.go`. -/
def yyR2 : List Int :=
  [0, 4, 6, 1, 0, 1, 3, 1, 3, 3,
   3, 3, 3, 4, 6, 3, 4, 1]

/-- `yyChk` from `vm/parser.go`. -/
def yyChk : List Int :=
  [-1000, -1, 6, -2, 5, 9, 4, 4, 11, 12,
   13, 14, 15, 16, -2, 9, 7, 8, -2, -2,
   -2, -2, 4, -2, 10, -3, -2, -2, 4, 9,
   17, 8, 10, 7, -3, -2, -2, 10]

/-- `yyDef` from `vm/parser.go`. -/
def yyDef : List Int :=
  [0, -2, 0, 3, 7, 0, 17, 0, 0, 0,
   0, 0, 0, 0, 0, 4, 0, 0, 9, 10,
   11, 12, 15, 0, 8, 0, 5, 1, 0, 4,
   16, 0, 13, 0, 0, 6, 2, 14]

/-- `yyTok1` from `vm/parser.go`. -/
def yyTok1 : List Int :=
  [1, 3, 3, 3, 3, 3, 3, 3, 3, 3,
   3, 3, 3, 3, 3, 3, 3, 3, 3, 3,
   3, 3, 3, 3, 3, 3, 3, 3, 3, 3,
   3, 3, 3, 3, 3, 3, 3, 3, 3, 3,
   9, 10, 13, 11, 8, 12, 15, 14, 3, 3,
   3, 3, 3, 3, 3, 3, 3, 3, 3, 3,
   3, 3, 3, 3, 3, 3, 3, 3, 3, 3,
   3, 3, 3, 3, 3, 3, 3, 3, 3, 3,
   3, 3, 3, 3, 3, 3, 3, 3, 3, 3,
   3, 16, 3, 17]

/-- `yyTok2` from `vm/parser.go`. -/
def yyTok2 : List Int := [2, 3, 4, 5, 6, 7]

/-- `yyLast` from `vm/parser.go`. -/
def yyLast : Int := 53

/-- Table access: Go indexes these tables with values that are in range
on every reachable path (out-of-range access would panic); the model
totalizes with default `0`. -/
def getI (l : List Int) (i : Int) : Int :=
  if i < 0 then 0 else l.getD i.toNat 0

/-- Translation of a lexer character code to an internal grammar token
number (`yylex1` in `vm/parser.go`): end of input (`char ≤ 0`) becomes
the `$end` token `1`, single characters go through `yyTok1`, the private
token codes `IDENT`/`LIT`/`FOR`/`IN` through `yyTok2`, and anything
unknown becomes `$unk` (`3`). -/
def tokTrans (ch : Int) : Int :=
  if ch ≤ 0 then 1
  else if ch < 94 then
    let t := getI yyTok1 ch
    if t = 0 then 3 else t
  else if 57344 ≤ ch ∧ ch < 57350 then
    let t := getI yyTok2 (ch - 57344)
    if t = 0 then 3 else t
  else 3

/-- Reading the next lookahead: an empty stream acts as end of input
(the scanner returns `EOF ≤ 0`, which `tokTrans` maps to `$end`). -/
def readTok : List ChTok → ChTok × List ChTok
  | [] => (⟨0, {}⟩, [])
  | t :: ts => (t, ts)

/-- A configuration of the `yyParse` driver: the state/value stack (top
first, the current state at the head), the current state, the held
lookahead (`yyrcvr.char`/`lval`; `none` = `-1`, not read), the remaining
token stream, the result slot `lex.e` that reduction actions write, and
the error-recovery flag `Errflag`. -/
structure PCfg where
  stack : List (Int × SymVal)
  state : Int
  la : Option ChTok
  input : List ChTok
  res : Option Expr
  errflag : Nat

/-- One driver transition either continues in a new configuration or
terminates with `yyParse`'s return code and the final `lex.e`. -/
inductive PStep where
  | cont (c : PCfg)
  | done (code : Int) (res : Option Expr)

/-- Scan `yyExca` for the row of a state (the loop at `yydefault` in
`vm/parser.go` that looks for `-1, state`). -/
def excaRow : List Int → Int → List Int
  | a :: b :: rest, st => if a = -1 ∧ b = st then rest else excaRow rest st
  | _, _ => []

/-- Scan an `yyExca` row for the action of a token: the first pair whose
token is negative (default) or equal to the lookahead gives the action. -/
def excaScan : List Int → Int → Int
  | a :: b :: rest, tok => if a < 0 ∨ a = tok then b else excaScan rest tok
  | _, _ => 0

/-- The reduction actions of the grammar (the `switch yynt` in
`vm/parser.go`): given the rule number, the popped right-hand-side
values `$1 … $n` (bottom first), the default `$$` (which Go initializes
to the stack slot of `$1`; for an ε-rule that slot holds no live data
and is modelled as the default value), and the current `lex.e`, produce
the new `$$` and `lex.e`. -/
def applyAction (rule : Int) (ds : List SymVal) (base : SymVal) (res : Option Expr) :
    SymVal × Option Expr :=
  let d (i : Nat) : SymVal := ds.getD (i - 1) {}
  if rule = 1 then (base, some (Expr.ForExpr (d 2).str "" (d 4).expr))
  else if rule = 2 then (base, some (Expr.ForExpr (d 2).str (d 4).str (d 6).expr))
  else if rule = 3 then (base, some (d 1).expr)
  else if rule = 4 then ({ base with exprs := [] }, res)
  else if rule = 5 then ({ base with exprs := [(d 1).expr] }, res)
  else if rule = 6 then ({ base with exprs := (d 1).exprs ++ [(d 3).expr] }, res)
  else if rule = 7 then ({ base with expr := Expr.LitExpr (d 1).lit }, res)
  else if rule = 8 then ({ base with expr := (d 2).expr }, res)
  else if rule = 9 then ({ base with expr := Expr.BinOpExpr "+" (d 1).expr (d 3).expr }, res)
  else if rule = 10 then ({ base with expr := Expr.BinOpExpr "-" (d 1).expr (d 3).expr }, res)
  else if rule = 11 then ({ base with expr := Expr.BinOpExpr "*" (d 1).expr (d 3).expr }, res)
  else if rule = 12 then ({ base with expr := Expr.BinOpExpr "/" (d 1).expr (d 3).expr }, res)
  else if rule = 13 then ({ base with expr := Expr.CallExpr (d 1).str (d 3).exprs }, res)
  else if rule = 14 then
    ({ base with expr := Expr.MethodCallExpr (d 1).expr (d 3).str (d 5).exprs }, res)
  else if rule = 15 then ({ base with expr := Expr.MemberExpr (d 1).expr (d 3).str }, res)
  else if rule = 16 then ({ base with expr := Expr.ItemExpr (d 1).expr (d 3).expr }, res)
  else if rule = 17 then ({ base with expr := Expr.IdentExpr (d 1).str }, res)
  else (base, res)

/-- Reduction by rule `yyn` (the tail of `yydefault` in `vm/parser.go`):
pop `yyR2[yyn]` entries, compute the goto state from `yyPgo`/`yyAct`/
`yyChk`, run the semantic action, push `$$`. -/
def preduce (c : PCfg) (yyn : Int) : PStep :=
  let rl := (getI yyR2 yyn).toNat
  let ds := (c.stack.take rl).reverse.map Prod.snd
  let stack' := c.stack.drop rl
  let base := ds.headD {}
  let topSt := (stack'.headD (0, {})).1
  let nt := getI yyR1 yyn
  let g := getI yyPgo nt
  let j := g + topSt + 1
  let nstate :=
    if j ≥ yyLast then getI yyAct g
    else if getI yyChk (getI yyAct j) = -nt then getI yyAct j
    else getI yyAct g
  let ar := applyAction yyn ds base c.res
  .cont { c with stack := (nstate, ar.1) :: stack', state := nstate, res := ar.2 }

/-- The error path (`yyn == 0` at `yydefault`): with `Errflag < 3`, set
`Errflag = 3` and pop the stack looking for a state with a shift on the
`error` token (this grammar has none, so the stack empties and the parse
aborts with return code 1); with `Errflag == 3`, discard the lookahead,
aborting if it was `$end`. -/
def perror (c : PCfg) (tok : Int) : PStep :=
  if c.errflag ≤ 2 then
    -- find a state on the stack with a legal shift of the error token 2
    let rec findErr : List (Int × SymVal) → Option (Int × List (Int × SymVal))
      | [] => none
      | (st, v) :: rest =>
        let yyn := getI yyPact st + 2
        if 0 ≤ yyn ∧ yyn < yyLast ∧ getI yyChk (getI yyAct yyn) = 2 then
          some (getI yyAct yyn, (st, v) :: rest)
        else findErr rest
    match findErr c.stack with
    | none => .done 1 c.res
    | some (st, stack') =>
      .cont { c with stack := (st, (c.stack.headD (0, {})).2) :: stack',
                     state := st, errflag := 3 }
  else
    if tok = 1 then .done 1 c.res
    else .cont { c with la := none }

/-- The `yydefault` label of `vm/parser.go`: take the default action of
the state; `-2` consults the exception table `yyExca` (which may accept),
`0` is an error, anything else is a reduction. -/
def pdefault (c : PCfg) : PStep :=
  let yyn := getI yyDef c.state
  if yyn = -2 then
    let rt := match c.la with
      | some t => (t, c.input)
      | none => readTok c.input
    let tok := tokTrans rt.1.ch
    let c := { c with la := some rt.1, input := rt.2 }
    let yyn2 := excaScan (excaRow yyExca c.state) tok
    if yyn2 < 0 then .done 0 c.res
    else if yyn2 = 0 then perror c tok
    else preduce c yyn2
  else if yyn = 0 then
    let tok := match c.la with
      | some t => tokTrans t.ch
      | none => 1
    perror c tok
  else preduce c yyn

/-- One iteration of the `yyParse` driver loop of `vm/parser.go`
(from label `yynewstate` back to `yystack`): try a shift of the
lookahead via `yyPact`/`yyAct`/`yyChk`, otherwise fall through to the
state's default action. -/
def pstep (c : PCfg) : PStep :=
  let pact := getI yyPact c.state
  if pact ≤ -1000 then pdefault c
  else
    let rt := match c.la with
      | some t => (t, c.input)
      | none => readTok c.input
    let tok := tokTrans rt.1.ch
    let c := { c with la := some rt.1, input := rt.2 }
    let yyn := pact + tok
    if 0 ≤ yyn ∧ yyn < yyLast then
      let tgt := getI yyAct yyn
      if getI yyChk tgt = tok then
        .cont { c with stack := (tgt, rt.1.lval) :: c.stack, state := tgt,
                       la := none, errflag := c.errflag - 1 }
      else pdefault c
    else pdefault c

/-- Run the driver for at most `n` transitions. -/
def ploop : Nat → PCfg → Option (Int × Option Expr)
  | 0, _ => none
  | n + 1, c =>
    match pstep c with
    | .cont c' => ploop n c'
    | .done k r => some (k, r)

/-- The initial configuration of `yyParse`: state 0 pushed with the
zero value, no lookahead, empty result slot. -/
def initCfg (toks : List ChTok) : PCfg :=
  ⟨[(0, {})], 0, none, toks, none, 0⟩

/-- `yyParse` on a token stream, returning its return code and the final
`lex.e`.  The Go loop has no step bound; `10·n + 50` transitions are
(provably, see the parse lemmas below) more than any input of `n` tokens
can take before terminating. -/
def parseToks (toks : List ChTok) : Option (Int × Option Expr) :=
  ploop (10 * toks.length + 50) (initCfg toks)

/-- Wrap an integer into the `int64` range, modelling Go's two's-
complement 64-bit arithmetic. -/
def wrap64 (n : ℤ) : ℤ := (n + 2 ^ 63) % 2 ^ 64 - 2 ^ 63

/-- Model of `strconv.ParseInt(s, 10, 64)`: an optional sign followed by
one or more decimal digits, value within the `int64` range (`none`
models a non-nil error: syntax or range). -/
def parseIntGo (s : String) : Option ℤ :=
  let core : List Char → Option ℤ := fun l =>
    if l ≠ [] ∧ l.all Char.isDigit then
      some ((digitsVal (l.map (fun c => c.toNat - 48)) : ℤ))
    else none
  let signed : Option ℤ :=
    match s.data with
    | '-' :: rest => (core rest).map (fun v => -v)
    | '+' :: rest => core rest
    | cs => core cs
  match signed with
  | some v => if -(2 ^ 63) ≤ v ∧ v < 2 ^ 63 then some v else none
  | none => none

/-- Model of `strconv.ParseFloat(s, 64)` on the grammatical forms the
evaluator can actually feed it (optional sign, decimal digits, optional
fraction, and the special forms `Inf`/`NaN`); exotic accepted forms such
as hexadecimal or exponent notation are not modelled (no verified
property produces them). -/
def parseFloatGo (s : String) : Option FloatV :=
  if s = "Inf" ∨ s = "+Inf" ∨ s = "Infinity" then some .inf
  else if s = "-Inf" ∨ s = "-Infinity" then some .ninf
  else if s = "NaN" then some .nan
  else
    let core : List Char → Option ℚ := fun cs =>
      let ip := cs.takeWhile Char.isDigit
      let rest := cs.dropWhile Char.isDigit
      if ip = [] then none
      else
        let ipv : ℚ := (digitsVal (ip.map (fun c => c.toNat - 48)) : ℚ)
        match rest with
        | [] => some ipv
        | '.' :: fs =>
          if fs ≠ [] ∧ fs.all Char.isDigit then
            some (ipv + (digitsVal (fs.map (fun c => c.toNat - 48)) : ℚ) / (10 : ℚ) ^ fs.length)
          else none
        | _ => none
    let signed : Option ℚ :=
      match s.data with
      | '-' :: rest => (core rest).map (fun v => -v)
      | '+' :: rest => core rest
      | cs => core cs
    signed.map .fin

/-- Models `strconv.ParseInt(fmt.Sprint(v), 10, 64)`, the text
round-trip the evaluator's integer branch applies to each operand
(`vm/parser.go` lines 652/656).  For an integer-family value the
print-then-parse round-trip is the identity (every `int64` prints as an
in-range decimal numeral, which `ParseInt` parses back exactly); other
kinds go through their actual default string form. -/
def coerceInt : GoVal → Option ℤ
  | .vint n => some n
  | .vint32 n => some n
  | .vint64 n => some n
  | v => parseIntGo (sprint v)

/-- Models `strconv.ParseFloat(fmt.Sprint(v), 64)`, the text round-trip
of the evaluator's float branch (`vm/parser.go` lines 672/676).  For a
float-family value the round-trip is the identity (Go prints the
shortest decimal that parses back to the same `float64`); integer-family
values parse to the corresponding float (exact in this unrounded
model); other kinds go through their actual default string form. -/
def coerceFloat : GoVal → Option FloatV
  | .vfloat32 x => some x
  | .vfloat64 x => some x
  | .vint n => some (.fin (n : ℚ))
  | .vint32 n => some (.fin (n : ℚ))
  | .vint64 n => some (.fin (n : ℚ))
  | v => parseFloatGo (sprint v)

/-- Outcome of an evaluation: a value (with nil error), an ordinary
`(value, error)` return with non-nil error (`pv` is the partial value Go
returns alongside the error — `nil` except straight out of a host call),
or a Go runtime panic, which is not a return at all. -/
inductive EvalRes where
  | val (v : GoVal)
  | errv (pv : GoVal) (msg : String)
  | fatal (msg : String)

/-- The `x, err := v.Eval(e); if err != nil { return nil, err }` pattern:
continue on a value, propagate an error as `(nil, err)`, propagate a
panic. -/
def EvalRes.andThen (r : EvalRes) (f : GoVal → EvalRes) : EvalRes :=
  match r with
  | .val v => f v
  | .errv _ m => .errv .vnil m
  | .fatal m => .fatal m

/-- `deref` from `vm/parser.go`: strip `Interface` and `Ptr` layers with
`Elem()` until a concrete kind remains; if the result is not valid (the
chain started from the nil `interface{}` or hit a nil pointer/interface)
fail with `cannot reference value`. -/
def deref : GoVal → Except String GoVal
  | .vptr v => deref v
  | .viface v => deref v
  | .vptrNil => .error "cannot reference value"
  | .vifaceNil => .error "cannot reference value"
  | .vnil => .error "cannot reference value"
  | v => .ok v

/-- Lift `deref`'s result into an evaluation outcome (the error return
of `evalAndDerefRv`). -/
def derefRes (v : GoVal) : EvalRes :=
  match deref v with
  | .ok c => .val c
  | .error m => .errv .vnil m

/-- `rv.MethodByName(name)`: the method set of the value form (only
value-receiver methods; only structs carry methods in this model). -/
def methodByNameVal : GoVal → String → Option Nat
  | .vstruct _ vmeths _, n => alookup vmeths n
  | _, _ => none

/-- `ptr.MethodByName(name)` after `ptr := reflect.New(rv.Type());
ptr.Elem().Set(rv)`: the method set of the pointer form (value-receiver
and pointer-receiver methods). -/
def methodByNamePtr : GoVal → String → Option Nat
  | .vstruct _ vmeths pmeths, n =>
    match alookup vmeths n with
    | some f => some f
    | none => alookup pmeths n
  | _, _ => none

/-- The return-value convention shared by `CallExpr` and
`MethodCallExpr` (`vm/parser.go` lines 706–719 and 777–790): no results
is `(nil, nil)`; one result is the value; with two or more results, a
second result of type `error` is returned as the error alongside the
first result, otherwise the first result alone is returned. -/
def retsToRes (rets : List GoVal) : EvalRes :=
  match rets with
  | [] => .val .vnil
  | [x] => .val x
  | x :: y :: _ =>
    match y with
    | .verr m => .errv x m
    | _ => .val x

/-- The host function table: the behavior of the callable host values
(`vfunc fid` / method ids); a call is `ft fid args`, for methods the
dereferenced receiver is passed first. -/
def FTab : Type := Nat → List GoVal → List GoVal

/-- `VM` from `vm/parser.go`: the name→value environment (the Go map is
modelled as an association list where `Set` prepends, so lookup sees the
latest binding). -/
structure VM where
  env : List (String × GoVal)

/-- `New` from `vm/parser.go`: create the VM with an empty environment. -/
def VM.New : VM := ⟨[]⟩

/-- `Set` from `vm/parser.go`: insert or overwrite a binding. -/
def VM.Set (v : VM) (n : String) (vv : GoVal) : VM := ⟨(n, vv) :: v.env⟩

/-- `Get` from `vm/parser.go`: non-failing lookup. -/
def VM.Get (v : VM) (n : String) : Option GoVal := alookup v.env n

mutual

/-- `VM.Eval` from `vm/parser.go`: the type-switch tree walk.  Cases
appear in source order; the final catch-all is the Go `switch`'s
implicit default, `return nil, nil`. -/
def VM.Eval (vm : VM) (ft : FTab) : Expr → EvalRes
  | .IdentExpr n =>
    match alookup vm.env n with
    | some r => .val r
    | none => .errv .vnil ("invalid token: " ++ n)
  | .LitExpr v => .val v
  | .BinOpExpr op l r =>
    (vm.Eval ft l).andThen fun lhs =>
    (vm.Eval ft r).andThen fun rhs =>
    match lhs with
    | .vstring s =>
      if op = "+" then .val (.vstring (s ++ sprint rhs))
      else .errv .vnil "unknown operator"
    | .vint _ | .vint32 _ | .vint64 _ =>
      match coerceInt lhs with
      | none => .errv .vnil ("strconv.ParseInt: parsing " ++ sprint lhs ++ ": invalid syntax")
      | some li =>
        match coerceInt rhs with
        | none => .errv .vnil ("strconv.ParseInt: parsing " ++ sprint rhs ++ ": invalid syntax")
        | some ri =>
          if op = "+" then .val (.vint64 (wrap64 (li + ri)))
          else if op = "-" then .val (.vint64 (wrap64 (li - ri)))
          else if op = "*" then .val (.vint64 (wrap64 (li * ri)))
          else if op = "/" then
            if ri = 0 then .fatal "runtime error: integer divide by zero"
            else .val (.vint64 (wrap64 (Int.tdiv li ri)))
          else .errv .vnil "unknown operator"
    | .vfloat32 _ | .vfloat64 _ =>
      match coerceFloat lhs with
      | none => .errv .vnil ("strconv.ParseFloat: parsing " ++ sprint lhs ++ ": invalid syntax")
      | some lf =>
        match coerceFloat rhs with
        | none => .errv .vnil ("strconv.ParseFloat: parsing " ++ sprint rhs ++ ": invalid syntax")
        | some rf =>
          if op = "+" then .val (.vfloat64 (FloatV.fadd lf rf))
          else if op = "-" then .val (.vfloat64 (FloatV.fsub lf rf))
          else if op = "*" then .val (.vfloat64 (FloatV.fmul lf rf))
          else if op = "/" then .val (.vfloat64 (FloatV.fdiv lf rf))
          else .errv .vnil "unknown operator"
    | _ => .errv .vnil "invalid type conversion"
  | .CallExpr name exprs =>
    match alookup vm.env name with
    | some f =>
      match vm.evalArgs ft exprs with
      | .inl er => er
      | .inr args =>
        match f with
        | .vfunc fid => retsToRes (ft fid args)
        | _ => .fatal "reflect: call of reflect.Value.Call on non-func Value"
    | none => .errv .vnil ("invalid token: " ++ name)
  | .ItemExpr lhs idx =>
    ((vm.Eval ft lhs).andThen derefRes).andThen fun rv =>
    (vm.Eval ft idx).andThen fun rhs =>
    match rv with
    | .vstruct fs _ _ =>
      match alookup fs (sprint rhs) with
      | some x => .val x
      | none => .errv .vnil "cannot reference item"
    | .vmap es =>
      match alookup es (sprint rhs) with
      | some x => .val x
      | none => .errv .vnil "cannot reference item"
    | .vslice xs =>
      match rhs with
      | .vint64 n =>
        if 0 ≤ n ∧ n < (xs.length : ℤ) then .val (xs.getD n.toNat .vnil)
        else .fatal "reflect: slice index out of range"
      | .vnil => .fatal "runtime error: invalid memory address or nil pointer dereference"
      | _ => .errv .vnil "cannot reference item"
    | _ => .errv .vnil "cannot reference item"
  | .MethodCallExpr lhs name exprs =>
    ((vm.Eval ft lhs).andThen derefRes).andThen fun rv =>
    match
      (match methodByNameVal rv name with
       | some fid => some fid
       | none => methodByNamePtr rv name) with
    | none => .errv .vnil ("cannot reference method: " ++ name)
    | some fid =>
      match vm.evalArgsDeref ft exprs with
      | .inl er => er
      | .inr args => retsToRes (ft fid (rv :: args))
  | .MemberExpr lhs name =>
    ((vm.Eval ft lhs).andThen derefRes).andThen fun rv =>
    match rv with
    | .vstruct fs _ _ =>
      match alookup fs name with
      | some x => .val x
      | none => .errv .vnil "cannot reference member"
    | .vmap es =>
      match alookup es name with
      | some x => .val x
      | none => .errv .vnil "cannot reference member"
    | _ => .errv .vnil "cannot reference member"
  | _ => .val .vnil

/-- The `CallExpr` argument loop (`vm/parser.go` lines 698–704):
evaluate each argument left to right, aborting on the first error. -/
def VM.evalArgs (vm : VM) (ft : FTab) : List Expr → EvalRes ⊕ List GoVal
  | [] => .inr []
  | e :: es =>
    match vm.Eval ft e with
    | .val v =>
      match vm.evalArgs ft es with
      | .inr vs => .inr (v :: vs)
      | .inl er => .inl er
    | .errv _ m => .inl (.errv .vnil m)
    | .fatal m => .inl (.fatal m)

/-- The `MethodCallExpr` argument loop (`vm/parser.go` lines 768–775):
like `evalArgs` but each argument is dereferenced (`evalAndDerefRv`). -/
def VM.evalArgsDeref (vm : VM) (ft : FTab) : List Expr → EvalRes ⊕ List GoVal
  | [] => .inr []
  | e :: es =>
    match (vm.Eval ft e).andThen derefRes with
    | .val v =>
      match vm.evalArgsDeref ft es with
      | .inr vs => .inr (v :: vs)
      | .inl er => .inl er
    | .errv _ m => .inl (.errv .vnil m)
    | .fatal m => .inl (.fatal m)

end

/-- `evalAndDerefRv` from `vm/parser.go`: evaluate, then `deref` the
`reflect.Value` of the result, propagating either failure. -/
def VM.evalAndDerefRv (vm : VM) (ft : FTab) (e : Expr) : EvalRes :=
  (vm.Eval ft e).andThen derefRes

/-- `Compile` from `vm/parser.go`: lex the source, run `yyParse`; a
nonzero return code is a syntax error carrying the source text,
otherwise the result is `lex.e` (nil if no rule set it). -/
def VM.Compile (v : VM) (s : String) : Except String Expr × VM :=
  match parseToks (lexAll s.data) with
  | some (0, e) => (.ok (e.getD Expr.enil), v)
  | _ => (.error ("syntax error: " ++ s), v)

/-- Iterate `pstep` for `n` transitions; `none` when the machine
terminates strictly before the `n`-th transition. -/
def piter : Nat → PCfg → Option PCfg
  | 0, c => some c
  | n + 1, c =>
    match pstep c with
    | .cont c' => piter n c'
    | .done _ _ => none

theorem piter_add (a b : Nat) (c : PCfg) :
    piter (a + b) c = (piter a c).bind (piter b) := by
  induction a generalizing c with
  | zero => simp [piter]
  | succ a ih =>
    have : a + 1 + b = (a + b) + 1 := by omega
    rw [this]
    simp only [piter]
    cases pstep c with
    | cont c' => exact ih c'
    | done k r => simp

theorem ploop_piter {n : Nat} {c c' : PCfg} (f : Nat) (h : piter n c = some c') :
    ploop (n + f) c = ploop f c' := by
  induction n generalizing c with
  | zero => simp [piter] at h; subst h; rw [Nat.zero_add]
  | succ n ih =>
    simp only [piter] at h
    have : n + 1 + f = (n + f) + 1 := by omega
    rw [this]
    cases hs : pstep c with
    | cont c'' =>
      rw [hs] at h
      simp only [ploop, hs]
      exact ih h
    | done k r => rw [hs] at h; simp at h

theorem ploop_done {c : PCfg} {k : Int} {r : Option Expr} (f : Nat)
    (h : pstep c = .done k r) : ploop (f + 1) c = some (k, r) := by
  simp [ploop, h]

/-- The four binary operators of the grammar. -/
inductive AOp where
  | add
  | sub
  | mul
  | div
deriving DecidableEq

/-- Source character of an operator. -/
def AOp.char : AOp → Char
  | .add => '+'
  | .sub => '-'
  | .mul => '*'
  | .div => '/'

/-- Operator string as stored in `BinOpExpr` by the reduction actions. -/
def AOp.str : AOp → String
  | .add => "+"
  | .sub => "-"
  | .mul => "*"
  | .div => "/"

/-- Lexer character code of an operator token. -/
def AOp.tokc (op : AOp) : Int := (op.char.toNat : Int)

/-- The parser state an operator token shifts to (from any state where
an expression has just been completed). -/
def AOp.shiftState : AOp → Int
  | .add => 8
  | .sub => 9
  | .mul => 10
  | .div => 11

/-- The Go `int64` operation of an operator (`vm/parser.go` lines
661–668): two's-complement wrap-around addition, subtraction and
multiplication, truncated division. -/
def AOp.iapp : AOp → ℤ → ℤ → ℤ
  | .add, a, b => wrap64 (a + b)
  | .sub, a, b => wrap64 (a - b)
  | .mul, a, b => wrap64 (a * b)
  | .div, a, b => wrap64 (Int.tdiv a b)

/-- The pure-arithmetic fragment of the expression grammar
(`expr := expr op expr | ( expr ) | LIT` restricted to the four
operators and literals): an arithmetic source text is an operator-
separated chain of atoms, each atom a literal or a parenthesized chain.
`AE` is the chain grammar in right-structured form — `chainNum`/
`chainParen` is an atom followed by an operator and the remaining chain
— so its values are in bijection with the fragment's token strings.
The payload `α` is the literal payload (`ℕ` for source numerals,
`GoVal` for lexed literal values). -/
inductive AE (α : Type) where
  | num (a : α)
  | paren (e : AE α)
  | chainNum (a : α) (op : AOp) (rest : AE α)
  | chainParen (e : AE α) (op : AOp) (rest : AE α)

/-- Map over the literal payloads of an arithmetic chain. -/
def AE.map {α β : Type} (f : α → β) : AE α → AE β
  | .num a => .num (f a)
  | .paren e => .paren (e.map f)
  | .chainNum a op r => .chainNum (f a) op (r.map f)
  | .chainParen e op r => .chainParen (e.map f) op (r.map f)

/-- The token string of an arithmetic chain (literal payloads already
lexed into `GoVal`s). -/
def toksE : AE GoVal → List ChTok
  | .num v => [⟨LIT, { lit := v }⟩]
  | .paren e => ⟨40, {}⟩ :: (toksE e ++ [⟨41, {}⟩])
  | .chainNum v op r => ⟨LIT, { lit := v }⟩ :: ⟨op.tokc, {}⟩ :: toksE r
  | .chainParen e op r => ⟨40, {}⟩ :: (toksE e ++ ⟨41, {}⟩ :: ⟨op.tokc, {}⟩ :: toksE r)

/-- The AST the parser machine builds for an arithmetic chain: with no
precedence declarations in the grammar every shift/reduce conflict was
resolved as a shift, so a chain parses right-associated. -/
def astE : AE GoVal → Expr
  | .num v => .LitExpr v
  | .paren e => astE e
  | .chainNum v op r => .BinOpExpr op.str (.LitExpr v) (astE r)
  | .chainParen e op r => .BinOpExpr op.str (astE e) (astE r)

/-- The `lit` field of the semantic value left on the stack for a chain
(the `$$ = $1` default keeps the first token's `lit` field). -/
def litOf : AE GoVal → GoVal
  | .num v => v
  | .chainNum v _ _ => v
  | .paren _ => .vnil
  | .chainParen _ _ _ => .vnil

/-- The full semantic value the parse of a chain pushes. -/
def symE (e : AE GoVal) : SymVal :=
  { expr := astE e, exprs := [], str := "", lit := litOf e }

/-- Whether the parse of a chain ends with the follow token already read
into the lookahead (a chain's final reduction needs the lookahead; a
single atom reduces without it). -/
def laReadE {α : Type} : AE α → Bool
  | .num _ => false
  | .paren _ => false
  | .chainNum _ _ _ => true
  | .chainParen _ _ _ => true

/-- The lookahead the driver holds after reading from stream `rest`
(an empty stream reads as the end-of-input marker). -/
def laHead : List ChTok → ChTok
  | [] => ⟨0, {}⟩
  | t :: _ => t

/-- The stream remaining after reading one lookahead. -/
def laTail : List ChTok → List ChTok
  | [] => []
  | _ :: ts => ts

/-- The goto state for the nonterminal `expr` from each state that can
precede an expression. -/
def gotoE (s : Int) : Int :=
  if s = 0 then 3
  else if s = 5 then 14
  else if s = 8 then 18
  else if s = 9 then 19
  else if s = 10 then 20
  else if s = 11 then 21
  else if s = 16 then 27
  else 36

/-- The states from which an expression can start (initial state, after
`(`, after each of the four operators, after `in`). -/
def isSF (s : Int) : Prop :=
  s = 0 ∨ s = 5 ∨ s = 8 ∨ s = 9 ∨ s = 10 ∨ s = 11 ∨ s = 16 ∨ s = 33

/-- The configuration the driver reaches after parsing the tokens of a
chain `e` from state `s` (stack `(s, v0) :: σ`), with `rest` following:
the goto state for `expr` with the chain's semantic value pushed, and
the lookahead read exactly when the chain ended in a reduction that
needed it. -/
def endCfg (s : Int) (v0 : SymVal) (σ : List (Int × SymVal)) (e : AE GoVal)
    (rest : List ChTok) (res : Option Expr) : PCfg :=
  { stack := (gotoE s, symE e) :: (s, v0) :: σ
    state := gotoE s
    la := if laReadE e then some (laHead rest) else none
    input := if laReadE e then laTail rest else rest
    res := res
    errflag := 0 }

/-- The canonical source text of an arithmetic chain over numerals:
tokens separated by single spaces. -/
def renderA : AE ℕ → List Char
  | .num n => natDecimal n
  | .paren e => '(' :: ' ' :: (renderA e ++ [' ', ')'])
  | .chainNum n op r => natDecimal n ++ ' ' :: op.char :: ' ' :: renderA r
  | .chainParen e op r =>
    '(' :: ' ' :: (renderA e ++ ' ' :: ')' :: ' ' :: op.char :: ' ' :: renderA r)

/-- The value of an arithmetic chain under the code's right-associated
reading with Go `int64` semantics. -/
def denoteA : AE ℕ → ℤ
  | .num n => (n : ℤ)
  | .paren e => denoteA e
  | .chainNum n op r => op.iapp (n : ℤ) (denoteA r)
  | .chainParen e op r => op.iapp (denoteA e) (denoteA r)

/-- All numerals of the chain are within the `int64` range (the lexer
clamps larger literals). -/
def litsOK : AE ℕ → Prop
  | .num n => (n : ℤ) < 2 ^ 63
  | .paren e => litsOK e
  | .chainNum n _ r => (n : ℤ) < 2 ^ 63 ∧ litsOK r
  | .chainParen e _ r => litsOK e ∧ litsOK r

/-- No division of the chain divides by zero (under the right-associated
reading the code gives the chain). -/
def noDivZero : AE ℕ → Prop
  | .num _ => True
  | .paren e => noDivZero e
  | .chainNum _ op r => noDivZero r ∧ (op = .div → denoteA r ≠ 0)
  | .chainParen e op r => noDivZero e ∧ noDivZero r ∧ (op = .div → denoteA r ≠ 0)

/-- The follow-token shapes the fragment lemmas allow: end of input or a
closing parenthesis. -/
def followOK (rest : List ChTok) : Prop :=
  rest = [] ∨ ∃ lv rest', rest = ⟨41, lv⟩ :: rest'

theorem pstep_shiftLIT (s : Int) (hs : isSF s) (v0 : SymVal) (σ : List (Int × SymVal))
    (lv : SymVal) (input : List ChTok) (res : Option Expr) :
    pstep ⟨(s, v0) :: σ, s, none, ⟨LIT, lv⟩ :: input, res, 0⟩ =
      .cont ⟨(4, lv) :: (s, v0) :: σ, 4, none, input, res, 0⟩ := by
  rcases hs with h|h|h|h|h|h|h|h <;> subst h <;> rfl

theorem pstep_reduceLIT (s : Int) (hs : isSF s) (v0 : SymVal) (σ : List (Int × SymVal))
    (lv : SymVal) (la : Option ChTok) (input : List ChTok) (res : Option Expr) :
    pstep ⟨(4, lv) :: (s, v0) :: σ, 4, la, input, res, 0⟩ =
      .cont ⟨(gotoE s, { lv with expr := .LitExpr lv.lit }) :: (s, v0) :: σ,
             gotoE s, la, input, res, 0⟩ := by
  rcases hs with h|h|h|h|h|h|h|h <;> subst h <;> rfl

theorem pstep_shiftLParen (s : Int) (hs : isSF s) (v0 : SymVal)
    (σ : List (Int × SymVal)) (lv : SymVal) (input : List ChTok) (res : Option Expr) :
    pstep ⟨(s, v0) :: σ, s, none, ⟨40, lv⟩ :: input, res, 0⟩ =
      .cont ⟨(5, lv) :: (s, v0) :: σ, 5, none, input, res, 0⟩ := by
  rcases hs with h|h|h|h|h|h|h|h <;> subst h <;> rfl

theorem pstep_shiftRParen (b : Bool) (w : SymVal) (σ : List (Int × SymVal))
    (lv : SymVal) (input : List ChTok) (res : Option Expr) :
    pstep ⟨(14, w) :: σ, 14, if b then some ⟨41, lv⟩ else none,
           if b then input else ⟨41, lv⟩ :: input, res, 0⟩ =
      .cont ⟨(24, lv) :: (14, w) :: σ, 24, none, input, res, 0⟩ := by
  cases b <;> rfl

theorem pstep_reduceParen (s : Int) (hs : isSF s) (v0 : SymVal)
    (σ : List (Int × SymVal)) (lv41 w lv40 : SymVal) (la : Option ChTok)
    (input : List ChTok) (res : Option Expr) :
    pstep ⟨(24, lv41) :: (14, w) :: (5, lv40) :: (s, v0) :: σ, 24, la, input, res, 0⟩ =
      .cont ⟨(gotoE s, { lv40 with expr := w.expr }) :: (s, v0) :: σ,
             gotoE s, la, input, res, 0⟩ := by
  rcases hs with h|h|h|h|h|h|h|h <;> subst h <;> rfl

theorem pstep_shiftOp (op : AOp) (s : Int) (hs : isSF s) (b : Bool) (w : SymVal)
    (σ : List (Int × SymVal)) (lv : SymVal) (input : List ChTok) (res : Option Expr) :
    pstep ⟨(gotoE s, w) :: σ, gotoE s, if b then some ⟨op.tokc, lv⟩ else none,
           if b then input else ⟨op.tokc, lv⟩ :: input, res, 0⟩ =
      .cont ⟨(op.shiftState, lv) :: (gotoE s, w) :: σ, op.shiftState,
             none, input, res, 0⟩ := by
  rcases hs with h|h|h|h|h|h|h|h <;> subst h <;> cases op <;> cases b <;> rfl

set_option maxHeartbeats 2000000 in
theorem pstep_reduceBin (op : AOp) (s : Int) (hs : isSF s) (b : Bool)
    (w1 w2 w3 v0 : SymVal) (σ : List (Int × SymVal)) (rest : List ChTok)
    (hf : followOK rest) (res : Option Expr) :
    pstep ⟨(gotoE op.shiftState, w3) :: (op.shiftState, w2) :: (gotoE s, w1) ::
             (s, v0) :: σ,
           gotoE op.shiftState, if b then some (laHead rest) else none,
           if b then laTail rest else rest, res, 0⟩ =
      .cont ⟨(gotoE s, { w1 with expr := .BinOpExpr op.str w1.expr w3.expr }) ::
               (s, v0) :: σ,
             gotoE s, some (laHead rest), laTail rest, res, 0⟩ := by
  rcases hf with h | ⟨lv, rest', h⟩ <;> subst h <;>
    rcases hs with h|h|h|h|h|h|h|h <;> subst h <;> cases op <;> cases b <;> rfl

theorem piter_step {c c' : PCfg} (h : pstep c = .cont c') (n : Nat) :
    piter (n + 1) c = piter n c' := by
  simp [piter, h]

theorem isSF_shiftState (op : AOp) : isSF op.shiftState := by
  cases op <;> simp [isSF, AOp.shiftState]

set_option maxHeartbeats 2000000 in
theorem parseE_run (e : AE GoVal) : ∀ (s : Int), isSF s → ∀ (v0 : SymVal)
    (σ : List (Int × SymVal)) (rest : List ChTok), followOK rest →
    ∀ (res : Option Expr),
    ∃ n ≤ 2 * (toksE e).length,
      piter n ⟨(s, v0) :: σ, s, none, toksE e ++ rest, res, 0⟩ =
        some (endCfg s v0 σ e rest res) := by
  induction e with
  | num v =>
    intro s hs v0 σ rest hf res
    refine ⟨2, by simp [toksE], ?_⟩
    have h1 := pstep_shiftLIT s hs v0 σ (SymVal.mk .enil [] "" v) rest res
    have h2 := pstep_reduceLIT s hs v0 σ (SymVal.mk .enil [] "" v) none rest res
    calc piter 2 ⟨(s, v0) :: σ, s, none, toksE (.num v) ++ rest, res, 0⟩
        = piter 1 ⟨(4, SymVal.mk .enil [] "" v) :: (s, v0) :: σ, 4, none,
            rest, res, 0⟩ := piter_step h1 1
      _ = piter 0 ⟨(gotoE s, SymVal.mk (.LitExpr v) [] "" v) :: (s, v0) :: σ,
            gotoE s, none, rest, res, 0⟩ := piter_step h2 0
      _ = some (endCfg s v0 σ (.num v) rest res) := rfl
  | paren e' ih =>
    intro s hs v0 σ rest hf res
    obtain ⟨n', hn', hp⟩ := ih 5 (by simp [isSF]) {} ((s, v0) :: σ)
      (⟨41, {}⟩ :: rest) (Or.inr ⟨{}, rest, rfl⟩) res
    refine ⟨n' + 3, by simp [toksE]; omega, ?_⟩
    have h1 := pstep_shiftLParen s hs v0 σ {} (toksE e' ++ ⟨41, {}⟩ :: rest) res
    have h3 := pstep_shiftRParen (laReadE e') (symE e')
      ((5, ({} : SymVal)) :: (s, v0) :: σ) {} rest res
    have h4 := pstep_reduceParen s hs v0 σ {} (symE e') {} none rest res
    have ha : toksE (.paren e') ++ rest =
        (⟨40, {}⟩ : ChTok) :: (toksE e' ++ ⟨41, {}⟩ :: rest) := by simp [toksE]
    calc piter (n' + 3) ⟨(s, v0) :: σ, s, none, toksE (.paren e') ++ rest, res, 0⟩
        = piter (n' + 2) ⟨(5, {}) :: (s, v0) :: σ, 5, none,
            toksE e' ++ ⟨41, {}⟩ :: rest, res, 0⟩ := by
          rw [show n' + 3 = (n' + 2) + 1 from rfl, ha]
          exact piter_step h1 _
      _ = (piter n' ⟨(5, {}) :: (s, v0) :: σ, 5, none,
            toksE e' ++ ⟨41, {}⟩ :: rest, res, 0⟩).bind (piter 2) := by
          rw [piter_add]
      _ = piter 2 (endCfg 5 {} ((s, v0) :: σ) e' (⟨41, {}⟩ :: rest) res) := by
          simp only [hp, Option.some_bind]
      _ = piter 1 ⟨(24, {}) :: (14, symE e') :: (5, {}) :: (s, v0) :: σ, 24, none,
            rest, res, 0⟩ := piter_step h3 1
      _ = piter 0 ⟨(gotoE s, SymVal.mk (astE e') [] "" .vnil) :: (s, v0) :: σ,
            gotoE s, none, rest, res, 0⟩ := piter_step h4 0
      _ = some (endCfg s v0 σ (.paren e') rest res) := rfl
  | chainNum v op r ih =>
    intro s hs v0 σ rest hf res
    obtain ⟨n', hn', hp⟩ := ih op.shiftState (isSF_shiftState op) {}
      ((gotoE s, SymVal.mk (.LitExpr v) [] "" v) :: (s, v0) :: σ) rest hf res
    refine ⟨n' + 4, by simp [toksE]; omega, ?_⟩
    have h1 := pstep_shiftLIT s hs v0 σ (SymVal.mk .enil [] "" v)
      (⟨op.tokc, {}⟩ :: (toksE r ++ rest)) res
    have h2 := pstep_reduceLIT s hs v0 σ (SymVal.mk .enil [] "" v) none
      (⟨op.tokc, {}⟩ :: (toksE r ++ rest)) res
    have h3 := pstep_shiftOp op s hs false
      (SymVal.mk (.LitExpr v) [] "" v) ((s, v0) :: σ) {} (toksE r ++ rest) res
    have h5 := pstep_reduceBin op s hs (laReadE r)
      (SymVal.mk (.LitExpr v) [] "" v) {} (symE r) v0 σ rest hf res
    calc piter (n' + 4)
          ⟨(s, v0) :: σ, s, none, toksE (.chainNum v op r) ++ rest, res, 0⟩
        = piter (n' + 3) ⟨(4, SymVal.mk .enil [] "" v) :: (s, v0) :: σ, 4, none,
            ⟨op.tokc, {}⟩ :: (toksE r ++ rest), res, 0⟩ := by
          rw [show n' + 4 = (n' + 3) + 1 from rfl]
          exact piter_step h1 _
      _ = piter (n' + 2) ⟨(gotoE s, SymVal.mk (.LitExpr v) [] "" v) :: (s, v0) :: σ,
            gotoE s, none, ⟨op.tokc, {}⟩ :: (toksE r ++ rest), res, 0⟩ := by
          rw [show n' + 3 = (n' + 2) + 1 from rfl]
          exact piter_step h2 _
      _ = piter (n' + 1) ⟨(op.shiftState, {}) ::
            (gotoE s, SymVal.mk (.LitExpr v) [] "" v) :: (s, v0) :: σ,
            op.shiftState, none, toksE r ++ rest, res, 0⟩ := by
          rw [show n' + 2 = (n' + 1) + 1 from rfl]
          exact piter_step h3 _
      _ = (piter n' ⟨(op.shiftState, {}) ::
            (gotoE s, SymVal.mk (.LitExpr v) [] "" v) :: (s, v0) :: σ,
            op.shiftState, none, toksE r ++ rest, res, 0⟩).bind (piter 1) := by
          rw [piter_add]
      _ = piter 1 (endCfg op.shiftState {}
            ((gotoE s, SymVal.mk (.LitExpr v) [] "" v) :: (s, v0) :: σ)
            r rest res) := by
          simp only [hp, Option.some_bind]
      _ = piter 0 ⟨(gotoE s,
            SymVal.mk (.BinOpExpr op.str (.LitExpr v) (astE r)) [] "" v) ::
            (s, v0) :: σ, gotoE s, some (laHead rest), laTail rest, res, 0⟩ :=
          piter_step h5 0
      _ = some (endCfg s v0 σ (.chainNum v op r) rest res) := rfl
  | chainParen e' op r ih ih2 =>
    intro s hs v0 σ rest hf res
    obtain ⟨n1, hn1, hp1⟩ := ih 5 (by simp [isSF]) {} ((s, v0) :: σ)
      (⟨41, {}⟩ :: ⟨op.tokc, {}⟩ :: (toksE r ++ rest)) (Or.inr ⟨{}, _, rfl⟩) res
    obtain ⟨n2, hn2, hp2⟩ := ih2 op.shiftState (isSF_shiftState op) {}
      ((gotoE s, SymVal.mk (astE e') [] "" .vnil) :: (s, v0) :: σ) rest hf res
    refine ⟨n1 + n2 + 5, by simp [toksE]; omega, ?_⟩
    have h1 := pstep_shiftLParen s hs v0 σ {}
      (toksE e' ++ ⟨41, {}⟩ :: ⟨op.tokc, {}⟩ :: (toksE r ++ rest)) res
    have h3 := pstep_shiftRParen (laReadE e') (symE e')
      ((5, ({} : SymVal)) :: (s, v0) :: σ) {} (⟨op.tokc, {}⟩ :: (toksE r ++ rest)) res
    have h4 := pstep_reduceParen s hs v0 σ {} (symE e') {} none
      (⟨op.tokc, {}⟩ :: (toksE r ++ rest)) res
    have h5 := pstep_shiftOp op s hs false (SymVal.mk (astE e') [] "" .vnil)
      ((s, v0) :: σ) {} (toksE r ++ rest) res
    have h6 := pstep_reduceBin op s hs (laReadE r) (SymVal.mk (astE e') [] "" .vnil)
      {} (symE r) v0 σ rest hf res
    have ha : toksE (.chainParen e' op r) ++ rest = (⟨40, {}⟩ : ChTok) ::
        (toksE e' ++ ⟨41, {}⟩ :: ⟨op.tokc, {}⟩ :: (toksE r ++ rest)) := by
      simp [toksE]
    calc piter (n1 + n2 + 5)
          ⟨(s, v0) :: σ, s, none, toksE (.chainParen e' op r) ++ rest, res, 0⟩
        = piter (n1 + (n2 + 4)) ⟨(5, {}) :: (s, v0) :: σ, 5, none,
            toksE e' ++ ⟨41, {}⟩ :: ⟨op.tokc, {}⟩ :: (toksE r ++ rest), res, 0⟩ := by
          rw [show n1 + n2 + 5 = (n1 + (n2 + 4)) + 1 from by omega, ha]
          exact piter_step h1 _
      _ = (piter n1 ⟨(5, {}) :: (s, v0) :: σ, 5, none,
            toksE e' ++ ⟨41, {}⟩ :: ⟨op.tokc, {}⟩ :: (toksE r ++ rest), res, 0⟩).bind
            (piter (n2 + 4)) := by
          rw [piter_add]
      _ = piter (n2 + 4) (endCfg 5 {} ((s, v0) :: σ) e'
            (⟨41, {}⟩ :: ⟨op.tokc, {}⟩ :: (toksE r ++ rest)) res) := by
          simp only [hp1, Option.some_bind]
      _ = piter (n2 + 3) ⟨(24, {}) :: (14, symE e') :: (5, {}) :: (s, v0) :: σ, 24,
            none, ⟨op.tokc, {}⟩ :: (toksE r ++ rest), res, 0⟩ := by
          rw [show n2 + 4 = (n2 + 3) + 1 from rfl]
          exact piter_step h3 _
      _ = piter (n2 + 2) ⟨(gotoE s, SymVal.mk (astE e') [] "" .vnil) ::
            (s, v0) :: σ, gotoE s, none, ⟨op.tokc, {}⟩ :: (toksE r ++ rest),
            res, 0⟩ := by
          rw [show n2 + 3 = (n2 + 2) + 1 from rfl]
          exact piter_step h4 _
      _ = piter (n2 + 1) ⟨(op.shiftState, {}) ::
            (gotoE s, SymVal.mk (astE e') [] "" .vnil) :: (s, v0) :: σ,
            op.shiftState, none, toksE r ++ rest, res, 0⟩ := by
          rw [show n2 + 2 = (n2 + 1) + 1 from rfl]
          exact piter_step h5 _
      _ = (piter n2 ⟨(op.shiftState, {}) ::
            (gotoE s, SymVal.mk (astE e') [] "" .vnil) :: (s, v0) :: σ,
            op.shiftState, none, toksE r ++ rest, res, 0⟩).bind (piter 1) := by
          rw [piter_add]
      _ = piter 1 (endCfg op.shiftState {}
            ((gotoE s, SymVal.mk (astE e') [] "" .vnil) :: (s, v0) :: σ)
            r rest res) := by
          simp only [hp2, Option.some_bind]
      _ = piter 0 ⟨(gotoE s,
            SymVal.mk (.BinOpExpr op.str (astE e') (astE r)) [] "" .vnil) ::
            (s, v0) :: σ, gotoE s, some (laHead rest), laTail rest, res, 0⟩ :=
          piter_step h6 0
      _ = some (endCfg s v0 σ (.chainParen e' op r) rest res) := rfl

theorem natDigitsRevF_zero (f : Nat) : natDigitsRevF f 0 = [] := by
  cases f <;> simp [natDigitsRevF]

theorem natDigitsRevF_congr (f : Nat) : ∀ (g n : Nat), n ≤ f → n ≤ g →
    natDigitsRevF f n = natDigitsRevF g n := by
  induction f with
  | zero =>
    intro g n h1 _
    have : n = 0 := by omega
    subst this
    simp [natDigitsRevF_zero]
  | succ f ih =>
    intro g n h1 h2
    by_cases hn : n = 0
    · subst hn; simp [natDigitsRevF_zero]
    · have hg : ∃ g', g = g' + 1 := ⟨g - 1, by omega⟩
      obtain ⟨g', rfl⟩ := hg
      have hd : n / 10 < n := Nat.div_lt_self (by omega) (by omega)
      simp only [natDigitsRevF, hn, if_false]
      rw [ih g' (n / 10) (by omega) (by omega)]

theorem natDigitsRev_eq (n : Nat) :
    natDigitsRev n = if n = 0 then [] else (n % 10) :: natDigitsRev (n / 10) := by
  by_cases hn : n = 0
  · subst hn; simp [natDigitsRev, natDigitsRevF_zero]
  · obtain ⟨m, rfl⟩ : ∃ m, n = m + 1 := ⟨n - 1, by omega⟩
    show natDigitsRevF (m + 1) (m + 1) = _
    simp only [natDigitsRevF, hn, if_false]
    congr 1
    exact natDigitsRevF_congr m ((m + 1) / 10) ((m + 1) / 10)
      (by have h10 : (m + 1) / 10 < m + 1 :=
            Nat.div_lt_self (Nat.succ_pos m) (by norm_num)
          omega)
      (le_refl _)

theorem natDigitsRev_all_lt (n : Nat) : ∀ d ∈ natDigitsRev n, d < 10 := by
  induction n using Nat.strong_induction_on with
  | _ n ih =>
    rw [natDigitsRev_eq]
    by_cases hn : n = 0
    · simp [hn]
    · simp only [hn, if_false, List.mem_cons]
      rintro d (rfl | hd)
      · omega
      · exact ih (n / 10) (Nat.div_lt_self (by omega) (by omega)) d hd

theorem digitsVal_append_single (l : List Nat) (d : Nat) :
    digitsVal (l ++ [d]) = 10 * digitsVal l + d := by
  simp [digitsVal, List.foldl_append]

theorem digitsVal_natDigitsRev (n : Nat) :
    digitsVal (natDigitsRev n).reverse = n := by
  induction n using Nat.strong_induction_on with
  | _ n ih =>
    rw [natDigitsRev_eq]
    by_cases hn : n = 0
    · simp [hn, digitsVal]
    · simp only [hn, if_false, List.reverse_cons]
      rw [digitsVal_append_single,
        ih (n / 10) (Nat.div_lt_self (by omega) (by omega))]
      omega

theorem digitChar_toNat (d : Nat) (h : d < 10) : (digitChar d).toNat = 48 + d := by
  interval_cases d <;> rfl

theorem digitChar_isDigit (d : Nat) (h : d < 10) : (digitChar d).isDigit = true := by
  interval_cases d <;> rfl

theorem isDigit_not_WS (c : Char) (h : c.isDigit = true) : isWS c = false := by
  simp only [isWS, decide_eq_false_iff_not, not_or]
  refine ⟨?_, ?_, ?_, ?_⟩ <;> (rintro rfl; exact absurd h (by decide))

theorem natDecimal_ne_nil (n : Nat) : natDecimal n ≠ [] := by
  by_cases hn : n = 0
  · simp [natDecimal, hn]
  · simp only [natDecimal, hn, if_false, ne_eq, List.map_eq_nil_iff]
    intro hrev
    rw [List.reverse_eq_nil_iff, natDigitsRev_eq] at hrev
    simp [hn] at hrev

theorem natDecimal_all_digits (n : Nat) :
    ∀ c ∈ natDecimal n, c.isDigit = true := by
  unfold natDecimal
  by_cases hn : n = 0
  · simp [hn]
  · simp only [hn, if_false]
    intro c hc
    obtain ⟨d, hd, rfl⟩ := List.mem_map.mp hc
    exact digitChar_isDigit d
      (natDigitsRev_all_lt n d (List.mem_reverse.mp hd))

theorem natDecimal_val (n : Nat) :
    digitsVal ((natDecimal n).map (fun c => c.toNat - 48)) = n := by
  unfold natDecimal
  by_cases hn : n = 0
  · subst hn; rfl
  · simp only [hn, if_false, List.map_map]
    have hc : ∀ d ∈ (natDigitsRev n).reverse,
        ((fun c => c.toNat - 48) ∘ digitChar) d = d := by
      intro d hd
      have := natDigitsRev_all_lt n d (List.mem_reverse.mp hd)
      simp [Function.comp, digitChar_toNat d this]
    calc digitsVal ((natDigitsRev n).reverse.map ((fun c => c.toNat - 48) ∘ digitChar))
        = digitsVal ((natDigitsRev n).reverse.map id) := by
          rw [List.map_congr_left hc]; simp
      _ = n := by rw [List.map_id]; exact digitsVal_natDigitsRev n

theorem intLitVal_natDecimal (n : Nat) (h : (n : ℤ) < 2 ^ 63) :
    intLitVal (natDecimal n) = .vint64 (n : ℤ) := by
  simp only [intLitVal]
  rw [natDecimal_val, if_pos (show n < 2 ^ 63 by exact_mod_cast h)]

theorem takeWhile_append_all {α : Type} (p : α → Bool) :
    ∀ (l t : List α), (∀ x ∈ l, p x = true) →
      List.takeWhile p (l ++ t) = l ++ List.takeWhile p t := by
  intro l
  induction l with
  | nil => intro t _; simp
  | cons c cs ih =>
    intro t hall
    simp only [List.cons_append, List.takeWhile_cons, hall c (by simp), if_true]
    rw [ih t (fun x hx => hall x (by simp [hx]))]

theorem dropWhile_append_all {α : Type} (p : α → Bool) :
    ∀ (l t : List α), (∀ x ∈ l, p x = true) →
      List.dropWhile p (l ++ t) = List.dropWhile p t := by
  intro l
  induction l with
  | nil => intro t _; simp
  | cons c cs ih =>
    intro t hall
    simp only [List.cons_append, List.dropWhile_cons, hall c (by simp), if_true]
    exact ih t (fun x hx => hall x (by simp [hx]))

theorem takeWhile_nil_of_head {α : Type} (p : α → Bool) (t : List α)
    (h : t = [] ∨ ∃ c t', t = c :: t' ∧ p c = false) :
    List.takeWhile p t = [] := by
  rcases h with rfl | ⟨c, t', rfl, hc⟩
  · rfl
  · simp [List.takeWhile_cons, hc]

theorem dropWhile_id_of_head {α : Type} (p : α → Bool) (t : List α)
    (h : t = [] ∨ ∃ c t', t = c :: t' ∧ p c = false) :
    List.dropWhile p t = t := by
  rcases h with rfl | ⟨c, t', rfl, hc⟩
  · rfl
  · simp [List.dropWhile_cons, hc]

theorem lexChars_nil (f : Nat) : lexChars f [] = [] := by
  cases f <;> rfl

theorem lexChars_congr (f : Nat) : ∀ (g : Nat) (cs : List Char),
    cs.length ≤ f → cs.length ≤ g → lexChars f cs = lexChars g cs := by
  induction f with
  | zero =>
    intro g cs h1 _
    have : cs = [] := by
      cases cs with
      | nil => rfl
      | cons c cs => simp at h1
    subst this
    simp [lexChars_nil]
  | succ f ih =>
    intro g cs h1 h2
    cases cs with
    | nil => simp [lexChars_nil]
    | cons c cs =>
      obtain ⟨g', rfl⟩ : ∃ g', g = g' + 1 := ⟨g - 1, by simp at h2; omega⟩
      simp only [List.length_cons] at h1 h2
      have hb1 : ((munchNum (c :: cs.takeWhile Char.isDigit)
          (cs.dropWhile Char.isDigit)).2).length ≤ cs.length :=
        le_trans (munchNum_rest_le _ _)
          (List.Sublist.length_le (List.dropWhile_sublist _))
      have hb2 : (cs.dropWhile isIdentCont).length ≤ cs.length :=
        List.Sublist.length_le (List.dropWhile_sublist _)
      have hb3 : ((cs.dropWhile (· ≠ '"')).drop 1).length ≤ cs.length := by
        have h3 := List.Sublist.length_le
          (List.dropWhile_sublist (p := (· ≠ '"')) (l := cs))
        simp only [List.length_drop]
        omega
      simp only [lexChars]
      split_ifs <;>
        first
          | exact ih g' cs (by omega) (by omega)
          | rw [ih g' (cs.dropWhile isIdentCont) (by omega) (by omega)]
          | rw [ih g' ((cs.dropWhile (· ≠ '"')).drop 1) (by omega) (by omega)]
          | rw [ih g' (munchNum (c :: cs.takeWhile Char.isDigit)
                (cs.dropWhile Char.isDigit)).2 (by omega) (by omega)]
          | rw [ih g' cs (by omega) (by omega)]

theorem lexAll_cons_of_le (f : Nat) (cs : List Char) (h : cs.length ≤ f) :
    lexChars f cs = lexAll cs :=
  lexChars_congr f cs.length cs h (le_refl _)

theorem lexChars_step_digit (f : Nat) (c : Char) (cs : List Char)
    (hw : isWS c = false) (hd : c.isDigit = true) :
    lexChars (f + 1) (c :: cs) =
      (munchNum (c :: cs.takeWhile Char.isDigit) (cs.dropWhile Char.isDigit)).1 ::
        lexChars f (munchNum (c :: cs.takeWhile Char.isDigit)
          (cs.dropWhile Char.isDigit)).2 := by
  simp [lexChars, hw, hd]

theorem lexAll_space (t : List Char) : lexAll (' ' :: t) = lexAll t := rfl

theorem lexAll_lparen (t : List Char) :
    lexAll ('(' :: t) = ⟨40, {}⟩ :: lexAll t := rfl

theorem lexAll_rparen (t : List Char) :
    lexAll (')' :: t) = ⟨41, {}⟩ :: lexAll t := rfl

theorem lexAll_op (op : AOp) (t : List Char) :
    lexAll (op.char :: t) = ⟨op.tokc, {}⟩ :: lexAll t := by
  cases op <;> rfl

theorem lexAll_digits (n : Nat) (tail : List Char)
    (ht : tail = [] ∨ ∃ t', tail = ' ' :: t') :
    lexAll (natDecimal n ++ tail) =
      ⟨LIT, { lit := intLitVal (natDecimal n) }⟩ :: lexAll tail := by
  obtain ⟨c, cs, hnc⟩ : ∃ c cs, natDecimal n = c :: cs := by
    cases h : natDecimal n with
    | nil => exact absurd h (natDecimal_ne_nil n)
    | cons c cs => exact ⟨c, cs, rfl⟩
  have hdigs := natDecimal_all_digits n
  have hc : c.isDigit = true := hdigs c (by rw [hnc]; simp)
  have hcs : ∀ x ∈ cs, x.isDigit = true := fun x hx => hdigs x (by rw [hnc]; simp [hx])
  have hws : isWS c = false := isDigit_not_WS c hc
  have htail : tail = [] ∨ ∃ c' t', tail = c' :: t' ∧ Char.isDigit c' = false := by
    rcases ht with rfl | ⟨t', rfl⟩
    · exact Or.inl rfl
    · exact Or.inr ⟨' ', t', rfl, by decide⟩
  rw [hnc]
  have hstart : lexAll ((c :: cs) ++ tail) =
      lexChars ((cs ++ tail).length + 1) (c :: (cs ++ tail)) := rfl
  rw [hstart, lexChars_step_digit _ _ _ hws hc]
  rw [takeWhile_append_all Char.isDigit cs tail hcs,
    takeWhile_nil_of_head Char.isDigit tail htail,
    dropWhile_append_all Char.isDigit cs tail hcs,
    dropWhile_id_of_head Char.isDigit tail htail,
    List.append_nil]
  have hmn : munchNum (c :: cs) tail = (⟨LIT, { lit := intLitVal (c :: cs) }⟩, tail) := by
    rcases ht with rfl | ⟨t', rfl⟩ <;> rfl
  rw [hmn]
  simp only [List.length_append]
  rw [lexAll_cons_of_le _ tail (by omega), ← hnc]

theorem lexAll_renderA (e : AE ℕ) : ∀ (tail : List Char),
    (tail = [] ∨ ∃ t', tail = ' ' :: t') →
    lexAll (renderA e ++ tail) =
      toksE (e.map (fun n => intLitVal (natDecimal n))) ++ lexAll tail := by
  induction e with
  | num n =>
    intro tail ht
    simpa [renderA, AE.map, toksE] using lexAll_digits n tail ht
  | paren e' ih =>
    intro tail ht
    have ha : renderA (.paren e') ++ tail =
        '(' :: ' ' :: (renderA e' ++ (' ' :: ')' :: tail)) := by
      simp [renderA]
    rw [ha, lexAll_lparen, lexAll_space,
      ih (' ' :: ')' :: tail) (Or.inr ⟨')' :: tail, rfl⟩),
      lexAll_space, lexAll_rparen]
    simp [AE.map, toksE]
  | chainNum n op r ih =>
    intro tail ht
    have ha : renderA (.chainNum n op r) ++ tail =
        natDecimal n ++ (' ' :: op.char :: ' ' :: (renderA r ++ tail)) := by
      simp [renderA]
    rw [ha, lexAll_digits n _ (Or.inr ⟨_, rfl⟩), lexAll_space, lexAll_op,
      lexAll_space, ih tail ht]
    simp [AE.map, toksE]
  | chainParen e' op r ih ih2 =>
    intro tail ht
    have ha : renderA (.chainParen e' op r) ++ tail =
        '(' :: ' ' :: (renderA e' ++
          (' ' :: ')' :: ' ' :: op.char :: ' ' :: (renderA r ++ tail))) := by
      simp [renderA]
    rw [ha, lexAll_lparen, lexAll_space,
      ih (' ' :: ')' :: ' ' :: op.char :: ' ' :: (renderA r ++ tail))
        (Or.inr ⟨_, rfl⟩),
      lexAll_space, lexAll_rparen, lexAll_space, lexAll_op, lexAll_space,
      ih2 tail ht]
    simp [AE.map, toksE]

theorem pstep_reduceProg (b : Bool) (w v0 : SymVal) (σ : List (Int × SymVal))
    (res : Option Expr) :
    pstep ⟨(3, w) :: (0, v0) :: σ, 3, if b then some ⟨0, {}⟩ else none, [], res, 0⟩ =
      .cont ⟨(1, w) :: (0, v0) :: σ, 1, some ⟨0, {}⟩, [], some w.expr, 0⟩ := by
  cases b <;> rfl

theorem pstep_accept (w : SymVal) (σ : List (Int × SymVal)) (lv : SymVal)
    (input : List ChTok) (res : Option Expr) :
    pstep ⟨(1, w) :: σ, 1, some ⟨0, lv⟩, input, res, 0⟩ = .done 0 res := rfl

theorem ploop_finish {c c' : PCfg} {k : Int} {r : Option Expr} (n fuel : Nat)
    (h1 : piter n c = some c') (h2 : pstep c' = .done k r) (h3 : n < fuel) :
    ploop fuel c = some (k, r) := by
  have he : fuel = n + (fuel - n) := by omega
  rw [he, ploop_piter (fuel - n) h1]
  have he2 : fuel - n = (fuel - n - 1) + 1 := by omega
  rw [he2]
  exact ploop_done _ h2

/-- `yyParse` accepts the token string of any arithmetic chain and
stores its right-associated AST in `lex.e`. -/
theorem parse_prog_expr (e : AE GoVal) :
    parseToks (toksE e) = some (0, some (astE e)) := by
  obtain ⟨n, hn, hp⟩ := parseE_run e 0 (Or.inl rfl) {} [] [] (Or.inl rfl) none
  rw [List.append_nil] at hp
  have h1 : pstep (endCfg 0 {} [] e [] none) =
      .cont ⟨[(1, symE e), (0, {})], 1, some ⟨0, {}⟩, [], some (astE e), 0⟩ := by
    have := pstep_reduceProg (laReadE e) (symE e) {} [] none
    simpa [endCfg, symE, gotoE, laHead, laTail] using this
  have h2 : piter (n + 1) (initCfg (toksE e)) =
      some ⟨[(1, symE e), (0, {})], 1, some ⟨0, {}⟩, [], some (astE e), 0⟩ := by
    rw [piter_add]
    simp only [initCfg]
    rw [hp]
    simp only [Option.some_bind, piter, h1]
  exact ploop_finish (n + 1) _ h2 (pstep_accept _ _ _ _ _) (by simp; omega)

/-- `yyParse` on `for IDENT in <expr-tokens>` accepts and stores
`ForExpr{ident, "", expr}`. -/
theorem parse_prog_for1 (lvF lvV lvI : SymVal) (e : AE GoVal) :
    parseToks (⟨FOR, lvF⟩ :: ⟨IDENT, lvV⟩ :: ⟨IN, lvI⟩ :: toksE e) =
      some (0, some (.ForExpr lvV.str "" (astE e))) := by
  obtain ⟨n, hn, hp⟩ := parseE_run e 16 (by simp [isSF]) lvI
    ((7, lvV) :: (2, lvF) :: [(0, {})]) [] (Or.inl rfl) none
  rw [List.append_nil] at hp
  have h1 : piter 3 (initCfg (⟨FOR, lvF⟩ :: ⟨IDENT, lvV⟩ :: ⟨IN, lvI⟩ :: toksE e)) =
      some ⟨(16, lvI) :: (7, lvV) :: (2, lvF) :: [(0, {})], 16, none,
        toksE e, none, 0⟩ := by rfl
  have h2 : pstep (endCfg 16 lvI ((7, lvV) :: (2, lvF) :: [(0, {})]) e [] none) =
      .cont ⟨[(1, lvF), (0, {})], 1, some ⟨0, {}⟩, [],
        some (.ForExpr lvV.str "" (astE e)), 0⟩ := by
    cases hb : laReadE e <;>
      simp [endCfg, symE, gotoE, laHead, laTail, hb] <;> rfl
  have h3 : piter (3 + (n + 1))
      (initCfg (⟨FOR, lvF⟩ :: ⟨IDENT, lvV⟩ :: ⟨IN, lvI⟩ :: toksE e)) =
      some ⟨[(1, lvF), (0, {})], 1, some ⟨0, {}⟩, [],
        some (.ForExpr lvV.str "" (astE e)), 0⟩ := by
    rw [piter_add, h1]
    simp only [Option.some_bind]
    rw [piter_add, hp]
    simp only [Option.some_bind, piter, h2]
  exact ploop_finish _ _ h3 (pstep_accept _ _ _ _ _) (by simp; omega)

/-- `yyParse` on `for IDENT , IDENT in <expr-tokens>` accepts and
stores `ForExpr{ident1, ident2, expr}`. -/
theorem parse_prog_for2 (lvF lvV lvC lvX lvI : SymVal) (e : AE GoVal) :
    parseToks (⟨FOR, lvF⟩ :: ⟨IDENT, lvV⟩ :: ⟨44, lvC⟩ :: ⟨IDENT, lvX⟩ ::
        ⟨IN, lvI⟩ :: toksE e) =
      some (0, some (.ForExpr lvV.str lvX.str (astE e))) := by
  obtain ⟨n, hn, hp⟩ := parseE_run e 33 (by simp [isSF]) lvI
    ((28, lvX) :: (17, lvC) :: (7, lvV) :: (2, lvF) :: [(0, {})]) [] (Or.inl rfl) none
  rw [List.append_nil] at hp
  have h1 : piter 5 (initCfg (⟨FOR, lvF⟩ :: ⟨IDENT, lvV⟩ :: ⟨44, lvC⟩ ::
      ⟨IDENT, lvX⟩ :: ⟨IN, lvI⟩ :: toksE e)) =
      some ⟨(33, lvI) :: (28, lvX) :: (17, lvC) :: (7, lvV) :: (2, lvF) :: [(0, {})],
        33, none, toksE e, none, 0⟩ := by rfl
  have h2 : pstep (endCfg 33 lvI
      ((28, lvX) :: (17, lvC) :: (7, lvV) :: (2, lvF) :: [(0, {})]) e [] none) =
      .cont ⟨[(1, lvF), (0, {})], 1, some ⟨0, {}⟩, [],
        some (.ForExpr lvV.str lvX.str (astE e)), 0⟩ := by
    cases hb : laReadE e <;>
      simp [endCfg, symE, gotoE, laHead, laTail, hb] <;> rfl
  have h3 : piter (5 + (n + 1))
      (initCfg (⟨FOR, lvF⟩ :: ⟨IDENT, lvV⟩ :: ⟨44, lvC⟩ :: ⟨IDENT, lvX⟩ ::
        ⟨IN, lvI⟩ :: toksE e)) =
      some ⟨[(1, lvF), (0, {})], 1, some ⟨0, {}⟩, [],
        some (.ForExpr lvV.str lvX.str (astE e)), 0⟩ := by
    rw [piter_add, h1]
    simp only [Option.some_bind]
    rw [piter_add, hp]
    simp only [Option.some_bind, piter, h2]
  exact ploop_finish _ _ h3 (pstep_accept _ _ _ _ _) (by simp; omega)

theorem lexAll_nil : lexAll [] = [] := rfl

/-- `Compile` on the canonical source text of an arithmetic chain
produces its right-associated AST. -/
theorem compile_renderA (v : VM) (e : AE ℕ) :
    (v.Compile (String.mk (renderA e))).1 =
      .ok (astE (e.map (fun n => intLitVal (natDecimal n)))) := by
  simp only [VM.Compile]
  have hl : lexAll (String.mk (renderA e)).data =
      toksE (e.map (fun n => intLitVal (natDecimal n))) := by
    have h := lexAll_renderA e [] (Or.inl rfl)
    simpa [lexAll_nil] using h
  rw [hl, parse_prog_expr]
  rfl

theorem map_intLit_eq (e : AE ℕ) (h : litsOK e) :
    e.map (fun n => intLitVal (natDecimal n)) =
      e.map (fun n : ℕ => GoVal.vint64 (n : ℤ)) := by
  induction e with
  | num n => simp [AE.map, intLitVal_natDecimal n h]
  | paren e' ih => simp [AE.map, ih h]
  | chainNum n op r ih =>
    simp [AE.map, intLitVal_natDecimal n h.1, ih h.2]
  | chainParen e' op r ih ih2 =>
    simp [AE.map, ih h.1, ih2 h.2]

/-- Evaluating the right-associated AST of an arithmetic chain over
`int64` literals computes the chain's value with Go `int64` semantics
(the coercions round-trip, `+`/`-`/`*` wrap, `/` truncates). -/
theorem eval_astE_arith (vm : VM) (ft : FTab) (e : AE ℕ) (h1 : litsOK e)
    (h2 : noDivZero e) :
    vm.Eval ft (astE (e.map (fun n : ℕ => GoVal.vint64 (n : ℤ)))) =
      .val (.vint64 (denoteA e)) := by
  induction e with
  | num n => simp [AE.map, astE, VM.Eval, denoteA]
  | paren e' ih =>
    simp only [AE.map, astE, denoteA]
    exact ih h1 h2
  | chainNum n op r ih =>
    have hr := ih h1.2 h2.1
    cases op with
    | div =>
      have hz : denoteA r ≠ 0 := h2.2 rfl
      simp [AE.map, astE, VM.Eval, hr, EvalRes.andThen, coerceInt, AOp.str,
        denoteA, AOp.iapp, hz]
    | add =>
      simp [AE.map, astE, VM.Eval, hr, EvalRes.andThen, coerceInt, AOp.str,
        denoteA, AOp.iapp]
    | sub =>
      simp [AE.map, astE, VM.Eval, hr, EvalRes.andThen, coerceInt, AOp.str,
        denoteA, AOp.iapp]
    | mul =>
      simp [AE.map, astE, VM.Eval, hr, EvalRes.andThen, coerceInt, AOp.str,
        denoteA, AOp.iapp]
  | chainParen e' op r ih ih2 =>
    have hl := ih h1.1 h2.1
    have hr := ih2 h1.2 h2.2.1
    cases op with
    | div =>
      have hz : denoteA r ≠ 0 := h2.2.2 rfl
      simp [AE.map, astE, VM.Eval, hl, hr, EvalRes.andThen, coerceInt, AOp.str,
        denoteA, AOp.iapp, hz]
    | add =>
      simp [AE.map, astE, VM.Eval, hl, hr, EvalRes.andThen, coerceInt, AOp.str,
        denoteA, AOp.iapp]
    | sub =>
      simp [AE.map, astE, VM.Eval, hl, hr, EvalRes.andThen, coerceInt, AOp.str,
        denoteA, AOp.iapp]
    | mul =>
      simp [AE.map, astE, VM.Eval, hl, hr, EvalRes.andThen, coerceInt, AOp.str,
        denoteA, AOp.iapp]

/-- The host-level composition the spec's examples describe: compile a
source string with a fresh VM and evaluate the resulting AST (with an
empty environment and host-function table, which pure-arithmetic
programs never consult); a compile error is surfaced as an error. -/
def evalString (s : String) : EvalRes :=
  match (VM.New.Compile s).1 with
  | .ok e => VM.New.Eval (fun _ _ => []) e
  | .error m => .errv .vnil m

/-- **C1 — counterexample.**  The claim says `Compile`+`Eval` implement
standard left-associative arithmetic with `*`/`/` binding tighter than
`+`/`-`.  It fails: the grammar has no precedence declarations, so the
generated tables resolve every shift/reduce conflict as a shift and all
four operators parse right-associated with equal precedence.
`"2 - 1 - 1"` evaluates to `2` (= `2-(1-1)`), not the standard `0`, and
`"2 * 3 + 4"` evaluates to `14` (= `2*(3+4)`), not the standard `10`. -/
theorem c1_counterexample :
    evalString "2 - 1 - 1" = .val (.vint64 2) ∧
    evalString "2 * 3 + 4" = .val (.vint64 14) ∧
    (2 : ℤ) - 1 - 1 = 0 ∧ (2 : ℤ) * 3 + 4 = 10 :=
  ⟨rfl, rfl, by norm_num, by norm_num⟩

/-- **C1 (amended).**  For every syntactically valid source expression
built only from integer literals (within the `int64` range), the binary
operators `+ - * /` and parentheses — every such source is, up to
whitespace and numeral spelling, the rendering of a unique chain
`e : AE ℕ` — compiling with `Compile`
returns the AST in which all four operators have **equal precedence and
associate to the right** (the grammar declares no precedence, so the
generated tables resolve every shift/reduce conflict as a shift), and
evaluating with `Eval` returns the value of that right-associated
reading under Go 64-bit integer semantics (wrap-around `+ - *`,
truncated `/`), provided no division by zero occurs (which would be a
runtime panic, see C2). -/
theorem c1_compile_eval_right_assoc (vm : VM) (ft : FTab) (e : AE ℕ)
    (h1 : litsOK e) (h2 : noDivZero e) :
    (vm.Compile (String.mk (renderA e))).1 =
      .ok (astE (e.map (fun n : ℕ => GoVal.vint64 (n : ℤ)))) ∧
    vm.Eval ft (astE (e.map (fun n : ℕ => GoVal.vint64 (n : ℤ)))) =
      .val (.vint64 (denoteA e)) := by
  constructor
  · rw [compile_renderA, map_intLit_eq e h1]
  · exact eval_astE_arith vm ft e h1 h2

/-- Witness for C1 (amended): the chain of `"2 + 3 * 4"`, which compiles
to `2 + (3 * 4)` and evaluates to `14`. -/
theorem c1_compile_eval_right_assoc_witness :
    (VM.New.Compile "2 + 3 * 4").1 =
      .ok (.BinOpExpr "+" (.LitExpr (.vint64 2))
        (.BinOpExpr "*" (.LitExpr (.vint64 3)) (.LitExpr (.vint64 4)))) ∧
    VM.New.Eval (fun _ _ => [])
      (.BinOpExpr "+" (.LitExpr (.vint64 2))
        (.BinOpExpr "*" (.LitExpr (.vint64 3)) (.LitExpr (.vint64 4)))) =
      .val (.vint64 14) := by
  have h := c1_compile_eval_right_assoc VM.New (fun _ _ => [])
    (.chainNum 2 .add (.chainNum 3 .mul (.num 4)))
    (by constructor <;> norm_num [litsOK])
    (by refine ⟨⟨trivial, ?_⟩, ?_⟩ <;> simp [noDivZero])
  exact h

/-- **C7 — confirmed.**  `"for x in xs"` compiles to
`ForExpr{"x", "", IdentExpr{"xs"}}` and `"for i, x in xs"` to
`ForExpr{"i", "x", IdentExpr{"xs"}}`; in general, for any identifier
token and expression token string, the one-variable form reduces through
grammar rule 1, which stores the empty string in the second variable
slot, and the two-variable form through rule 2. -/
theorem c7_for_compile :
    (VM.New.Compile "for x in xs").1 = .ok (.ForExpr "x" "" (.IdentExpr "xs")) ∧
    (VM.New.Compile "for i, x in xs").1 =
      .ok (.ForExpr "i" "x" (.IdentExpr "xs")) ∧
    (∀ (lvF lvV lvI : SymVal) (e : AE GoVal),
      parseToks (⟨FOR, lvF⟩ :: ⟨IDENT, lvV⟩ :: ⟨IN, lvI⟩ :: toksE e) =
        some (0, some (.ForExpr lvV.str "" (astE e)))) ∧
    (∀ (lvF lvV lvC lvX lvI : SymVal) (e : AE GoVal),
      parseToks (⟨FOR, lvF⟩ :: ⟨IDENT, lvV⟩ :: ⟨44, lvC⟩ :: ⟨IDENT, lvX⟩ ::
          ⟨IN, lvI⟩ :: toksE e) =
        some (0, some (.ForExpr lvV.str lvX.str (astE e)))) :=
  ⟨rfl, rfl, fun lvF lvV lvI e => parse_prog_for1 lvF lvV lvI e,
    fun lvF lvV lvC lvX lvI e => parse_prog_for2 lvF lvV lvC lvX lvI e⟩

/-- **C8 — confirmed.**  `Compile` is deterministic and side-effect-free:
it returns the VM unchanged (it never writes a binding), and its result
does not depend on the VM's environment at all, so two calls on the same
string — from the same or differently populated VMs — yield structurally
equal results, on success and on failure alike.  (In this embedding
`Compile` is a pure function, so determinism of two same-argument calls
is intrinsic; the content is that the returned state is the input state
and the result ignores the environment.) -/
theorem c8_compile_pure (v v' : VM) (s : String) :
    (v.Compile s).2 = v ∧ (v.Compile s).1 = (v'.Compile s).1 := by
  constructor
  · unfold VM.Compile
    split <;> rfl
  · unfold VM.Compile
    split <;> rename_i h <;> simp [h]

/-- **C9 — confirmed.**  An `Expr` variant without a case in `Eval`'s
type switch — `ForExpr`, the documented result of compiling a `for`
statement, and also the nil `Expr` — falls through to the switch's
implicit default, `return nil, nil`: the nil value with a nil error, no
error signalled. -/
theorem c9_unhandled_eval_nil (vm : VM) (ft : FTab) (a b : String) (e : Expr) :
    vm.Eval ft (.ForExpr a b e) = .val .vnil ∧ vm.Eval ft .enil = .val .vnil :=
  ⟨rfl, rfl⟩

theorem fdiv_zero_special (x : FloatV) :
    FloatV.fdiv x (.fin 0) = .inf ∨ FloatV.fdiv x (.fin 0) = .ninf ∨
      FloatV.fdiv x (.fin 0) = .nan := by
  cases x with
  | fin q =>
    rcases lt_trichotomy q 0 with h | h | h
    · right; left; simp [FloatV.fdiv, h, not_lt_of_gt h]
    · right; right; simp [FloatV.fdiv, h]
    · left; simp [FloatV.fdiv, h]
  | inf => left; simp [FloatV.fdiv]
  | ninf => right; left; simp [FloatV.fdiv]
  | nan => right; right; simp [FloatV.fdiv]

/-- **C2 — confirmed.**  Evaluating `BinOpExpr` with op `/`: when both
operands are integer-family values and the right one is zero, the
division is a fatal evaluation error — the Go runtime panic
`integer divide by zero`, which propagates as a runtime fault and is
not specially caught; when both operands are floats and the right one
is zero, evaluation returns `+Inf`, `-Inf` or `NaN` per IEEE-754 and
signals no error. -/
theorem c2_div_by_zero (vm : VM) (ft : FTab) (l r : Expr) (lv rv : GoVal)
    (hl : vm.Eval ft l = .val lv) (hr : vm.Eval ft r = .val rv) :
    ((∃ li, lv = .vint li ∨ lv = .vint32 li ∨ lv = .vint64 li) →
      (rv = .vint 0 ∨ rv = .vint32 0 ∨ rv = .vint64 0) →
      vm.Eval ft (.BinOpExpr "/" l r) =
        .fatal "runtime error: integer divide by zero") ∧
    (∀ x, (lv = .vfloat32 x ∨ lv = .vfloat64 x) →
      (rv = .vfloat32 (.fin 0) ∨ rv = .vfloat64 (.fin 0)) →
      vm.Eval ft (.BinOpExpr "/" l r) =
          .val (.vfloat64 (FloatV.fdiv x (.fin 0))) ∧
        (FloatV.fdiv x (.fin 0) = .inf ∨ FloatV.fdiv x (.fin 0) = .ninf ∨
          FloatV.fdiv x (.fin 0) = .nan)) := by
  constructor
  · rintro ⟨li, hlv | hlv | hlv⟩ (hrv | hrv | hrv) <;> subst hlv <;> subst hrv <;>
      simp [VM.Eval, hl, hr, EvalRes.andThen, coerceInt]
  · rintro x (hlv | hlv) (hrv | hrv) <;> subst hlv <;> subst hrv <;>
      exact ⟨by simp [VM.Eval, hl, hr, EvalRes.andThen, coerceFloat],
        fdiv_zero_special x⟩

/-- Witness for C2: `1 / 0` on `int64` operands panics with the Go
runtime divide-by-zero fault; `1.0 / 0.0` on `float64` operands returns
`+Inf` without error. -/
theorem c2_div_by_zero_witness :
    VM.New.Eval (fun _ _ => [])
      (.BinOpExpr "/" (.LitExpr (.vint64 1)) (.LitExpr (.vint64 0))) =
      .fatal "runtime error: integer divide by zero" ∧
    VM.New.Eval (fun _ _ => [])
      (.BinOpExpr "/" (.LitExpr (.vfloat64 (.fin 1)))
        (.LitExpr (.vfloat64 (.fin 0)))) =
      .val (.vfloat64 .inf) := by
  have h1 := c2_div_by_zero VM.New (fun _ _ => []) (.LitExpr (.vint64 1))
    (.LitExpr (.vint64 0)) (.vint64 1) (.vint64 0) rfl rfl
  have h2 := c2_div_by_zero VM.New (fun _ _ => []) (.LitExpr (.vfloat64 (.fin 1)))
    (.LitExpr (.vfloat64 (.fin 0))) (.vfloat64 (.fin 1)) (.vfloat64 (.fin 0))
    rfl rfl
  refine ⟨h1.1 ⟨1, Or.inr (Or.inr rfl)⟩ (Or.inr (Or.inr rfl)), ?_⟩
  have h3 := (h2.2 (.fin 1) (Or.inr rfl) (Or.inr rfl)).1
  simpa using h3

/-- **C5 — confirmed.**  For a `BinOpExpr` whose left operand evaluates
to a string (and whose right operand evaluates to any value): `+`
concatenates the left string with the right operand's default string
representation regardless of the right operand's type; any other
operator fails with the `unknown operator` error. -/
theorem c5_string_concat (vm : VM) (ft : FTab) (op : String) (l r : Expr)
    (s : String) (rv : GoVal)
    (hl : vm.Eval ft l = .val (.vstring s)) (hr : vm.Eval ft r = .val rv) :
    (op = "+" →
      vm.Eval ft (.BinOpExpr op l r) = .val (.vstring (s ++ sprint rv))) ∧
    (op ≠ "+" →
      vm.Eval ft (.BinOpExpr op l r) = .errv .vnil "unknown operator") := by
  constructor
  · rintro rfl
    simp [VM.Eval, hl, hr, EvalRes.andThen]
  · intro h
    simp [VM.Eval, hl, hr, EvalRes.andThen, h]

/-- Witness for C5: `"a" + 1` yields the string `"a1"`; `"a" - 1` fails
with `unknown operator`. -/
theorem c5_string_concat_witness :
    VM.New.Eval (fun _ _ => [])
      (.BinOpExpr "+" (.LitExpr (.vstring "a")) (.LitExpr (.vint64 1))) =
      .val (.vstring "a1") ∧
    VM.New.Eval (fun _ _ => [])
      (.BinOpExpr "-" (.LitExpr (.vstring "a")) (.LitExpr (.vint64 1))) =
      .errv .vnil "unknown operator" := by
  have h1 := c5_string_concat VM.New (fun _ _ => []) "+"
    (.LitExpr (.vstring "a")) (.LitExpr (.vint64 1)) "a" (.vint64 1) rfl rfl
  have h2 := c5_string_concat VM.New (fun _ _ => []) "-"
    (.LitExpr (.vstring "a")) (.LitExpr (.vint64 1)) "a" (.vint64 1) rfl rfl
  exact ⟨h1.1 rfl, h2.2 (by decide)⟩

/-- **C6 — confirmed.**  For a `MethodCallExpr` whose dereferenced
receiver is a struct whose named method is absent from the value-form
method set but present in the pointer-form method set (a method defined
only with a pointer receiver), resolution still succeeds: the failed
value lookup is retried on the addressable pointer built with
`reflect.New`/`Set`, and the call proceeds (no `MethodNotFound`). -/
theorem c6_ptr_receiver_fallback (vm : VM) (ft : FTab) (lhs : Expr)
    (name : String) (w : GoVal) (fs : List (String × GoVal))
    (vms pms : List (String × Nat)) (fid : Nat)
    (hrecv : vm.Eval ft lhs = .val w)
    (hder : deref w = .ok (.vstruct fs vms pms))
    (h1 : alookup vms name = none) (h2 : alookup pms name = some fid) :
    vm.Eval ft (.MethodCallExpr lhs name []) =
      retsToRes (ft fid [.vstruct fs vms pms]) := by
  simp [VM.Eval, hrecv, EvalRes.andThen, derefRes, hder, methodByNameVal,
    methodByNamePtr, h1, h2, VM.evalArgsDeref]

/-- Witness for C6: a struct whose method `M` exists only in the
pointer-form method set still resolves, and the call returns the host
function's result. -/
theorem c6_ptr_receiver_fallback_witness :
    VM.New.Eval (fun _ _ => [GoVal.vint64 7])
      (.MethodCallExpr (.LitExpr (.vstruct [] [] [("M", 0)])) "M" []) =
      .val (.vint64 7) := by
  have h := c6_ptr_receiver_fallback VM.New (fun _ _ => [GoVal.vint64 7])
    (.LitExpr (.vstruct [] [] [("M", 0)])) "M" (.vstruct [] [] [("M", 0)])
    [] [] [("M", 0)] 0 rfl rfl rfl rfl
  simpa using h

/-- **C4 — counterexample.**  The claim says a name that resolves to a
non-callable value fails with a `NotCallable` error returned to the
caller.  It does not: `Eval` calls `reflect.Value.Call` on the resolved
value with no callability check, and `Call` on a non-func value is a
runtime panic, not a returned error. -/
theorem c4_counterexample :
    (VM.mk [("x", .vint64 1)]).Eval (fun _ _ => []) (.CallExpr "x" []) =
      .fatal "reflect: call of reflect.Value.Call on non-func Value" := rfl

/-- **C4 (amended).**  For every `CallExpr`: a name absent from the
environment fails with the unbound-name error `invalid token: <name>`
returned to the caller (before any argument is evaluated); a name bound
to a non-callable value causes a runtime panic out of
`reflect.Value.Call` (after the arguments evaluate successfully), not an
ordinary returned error. -/
theorem c4_call_name_errors (vm : VM) (ft : FTab) (name : String)
    (args : List Expr) :
    (alookup vm.env name = none →
      vm.Eval ft (.CallExpr name args) =
        .errv .vnil ("invalid token: " ++ name)) ∧
    (∀ f vs, alookup vm.env name = some f → (∀ fid, f ≠ .vfunc fid) →
      vm.evalArgs ft args = .inr vs →
      vm.Eval ft (.CallExpr name args) =
        .fatal "reflect: call of reflect.Value.Call on non-func Value") := by
  constructor
  · intro h
    simp [VM.Eval, h]
  · intro f vs h hnf hargs
    cases f <;> simp [VM.Eval, h, hargs]
    exact absurd rfl (hnf _)

/-- Witness for C4 (amended): an unbound name errors with
`invalid token: y`; a name bound to the integer `1` panics in
`reflect.Value.Call`. -/
theorem c4_call_name_errors_witness :
    VM.New.Eval (fun _ _ => []) (.CallExpr "y" []) =
      .errv .vnil "invalid token: y" ∧
    (VM.mk [("x", .vint64 1)]).Eval (fun _ _ => []) (.CallExpr "x" []) =
      .fatal "reflect: call of reflect.Value.Call on non-func Value" := by
  have h1 := (c4_call_name_errors VM.New (fun _ _ => []) "y" []).1 rfl
  have h2 := (c4_call_name_errors (VM.mk [("x", .vint64 1)]) (fun _ _ => [])
    "x" []).2 (.vint64 1) [] rfl (fun fid h => by cases h) rfl
  exact ⟨h1, h2⟩

/-- **C3 — counterexample.**  The claim says every receiver/index-type
combination other than slice-with-int64, and every out-of-range index,
yields `IndexError` as an ordinary evaluation error returned to the
caller.  Both halves fail on the code: a struct receiver is accessed as
a field named by the index's string form and can succeed (here
`s["F"]` returns `7`), and an out-of-range index on a slice is a
runtime panic out of `reflect.Value.Index`, not a returned error. -/
theorem c3_counterexample :
    (VM.mk [("s", .vstruct [("F", .vint64 7)] [] [])]).Eval (fun _ _ => [])
      (.ItemExpr (.IdentExpr "s") (.LitExpr (.vstring "F"))) =
      .val (.vint64 7) ∧
    (VM.mk [("xs", .vslice [.vint64 5])]).Eval (fun _ _ => [])
      (.ItemExpr (.IdentExpr "xs") (.LitExpr (.vint64 3))) =
      .fatal "reflect: slice index out of range" :=
  ⟨rfl, rfl⟩

/-- **C3 (amended).**  Evaluation of an `ItemExpr` (receiver evaluated
and dereferenced, then the index evaluated): a struct receiver is
accessed as a field named by the index's default string form and a map
receiver by that string as key, failure yielding the `IndexError`
`cannot reference item`; a slice receiver with an index of runtime type
`int64` returns the element at that position when in range and panics
(`reflect.Value.Index`) when out of range — it is not an ordinary
returned error; a slice receiver with a nil index panics in the
`reflect.TypeOf(nil).Kind()` call; a slice receiver with any other
index type, and any other receiver kind, yields the `IndexError`
`cannot reference item` returned to the caller. -/
theorem c3_item_access (vm : VM) (ft : FTab) (lhs idx : Expr) (w c i : GoVal)
    (hl : vm.Eval ft lhs = .val w) (hd : deref w = .ok c)
    (hi : vm.Eval ft idx = .val i) :
    (∀ fs vms pms, c = .vstruct fs vms pms →
      vm.Eval ft (.ItemExpr lhs idx) =
        (match alookup fs (sprint i) with
         | some x => .val x
         | none => .errv .vnil "cannot reference item")) ∧
    (∀ es, c = .vmap es →
      vm.Eval ft (.ItemExpr lhs idx) =
        (match alookup es (sprint i) with
         | some x => .val x
         | none => .errv .vnil "cannot reference item")) ∧
    (∀ xs n, c = .vslice xs → i = .vint64 n →
      vm.Eval ft (.ItemExpr lhs idx) =
        (if 0 ≤ n ∧ n < (xs.length : ℤ) then .val (xs.getD n.toNat .vnil)
         else .fatal "reflect: slice index out of range")) ∧
    (∀ xs, c = .vslice xs → i = .vnil →
      vm.Eval ft (.ItemExpr lhs idx) =
        .fatal "runtime error: invalid memory address or nil pointer dereference") ∧
    (∀ xs, c = .vslice xs → (∀ n, i ≠ .vint64 n) → i ≠ .vnil →
      vm.Eval ft (.ItemExpr lhs idx) = .errv .vnil "cannot reference item") ∧
    ((∀ fs vms pms, c ≠ .vstruct fs vms pms) → (∀ es, c ≠ .vmap es) →
      (∀ xs, c ≠ .vslice xs) →
      vm.Eval ft (.ItemExpr lhs idx) = .errv .vnil "cannot reference item") := by
  refine ⟨?_, ?_, ?_, ?_, ?_, ?_⟩
  · rintro fs vms pms rfl
    cases halk : alookup fs (sprint i) <;>
      simp [VM.Eval, hl, hi, EvalRes.andThen, derefRes, hd, halk]
  · rintro es rfl
    cases halk : alookup es (sprint i) <;>
      simp [VM.Eval, hl, hi, EvalRes.andThen, derefRes, hd, halk]
  · rintro xs n rfl rfl
    by_cases hb : 0 ≤ n ∧ n < (xs.length : ℤ) <;>
      simp [VM.Eval, hl, hi, EvalRes.andThen, derefRes, hd, hb]
  · rintro xs rfl rfl
    simp [VM.Eval, hl, hi, EvalRes.andThen, derefRes, hd]
  · rintro xs rfl hn hnl
    cases i <;>
      simp [VM.Eval, hl, hi, EvalRes.andThen, derefRes, hd] <;>
      first
        | exact absurd rfl hnl
        | exact absurd rfl (hn _)
  · intro hs hm hsl
    cases c <;>
      simp [VM.Eval, hl, hi, EvalRes.andThen, derefRes, hd] <;>
      first
        | exact absurd rfl (hs _ _ _)
        | exact absurd rfl (hm _)
        | exact absurd rfl (hsl _)

/-- Witness for C3 (amended): an in-range `int64` index on a slice
returns the element. -/
theorem c3_item_access_witness :
    (VM.mk [("xs", .vslice [.vint64 5])]).Eval (fun _ _ => [])
      (.ItemExpr (.IdentExpr "xs") (.LitExpr (.vint64 0))) =
      .val (.vint64 5) := by
  have h := (c3_item_access (VM.mk [("xs", .vslice [.vint64 5])]) (fun _ _ => [])
    (.IdentExpr "xs") (.LitExpr (.vint64 0)) (.vslice [.vint64 5])
    (.vslice [.vint64 5]) (.vint64 0) rfl rfl rfl).2.2.1 [.vint64 5] 0 rfl rfl
  simpa using h

/-- Wrap a value in a stack of pointer (`true`) and interface (`false`)
indirection layers. -/
def wrapLayers : List Bool → GoVal → GoVal
  | [], v => v
  | true :: ls, v => .vptr (wrapLayers ls v)
  | false :: ls, v => .viface (wrapLayers ls v)

/-- A pointer or interface indirection layer (or a nil one), i.e. a
value `deref`'s loop does not stop at. -/
def isWrapper : GoVal → Bool
  | .vptr _ => true
  | .viface _ => true
  | .vptrNil => true
  | .vifaceNil => true
  | _ => false

/-- **C10 — confirmed.**  When the receiver of a `MemberExpr`,
`ItemExpr` or `MethodCallExpr` — or a `MethodCallExpr` argument —
evaluates to a nil pointer or nil interface (or the nil `interface{}`),
dereferencing fails and the whole evaluation returns the error
`cannot reference value` rather than a value (for `ItemExpr` the index
is not even evaluated); otherwise `deref` strips every pointer and
interface layer down to the concrete value. -/
theorem c10_deref_nil (vm : VM) (ft : FTab) :
    (∀ (lhs : Expr) (w : GoVal), vm.Eval ft lhs = .val w →
      (w = .vptrNil ∨ w = .vifaceNil ∨ w = .vnil) →
      (∀ name, vm.Eval ft (.MemberExpr lhs name) =
        .errv .vnil "cannot reference value") ∧
      (∀ idx, vm.Eval ft (.ItemExpr lhs idx) =
        .errv .vnil "cannot reference value") ∧
      (∀ name args, vm.Eval ft (.MethodCallExpr lhs name args) =
        .errv .vnil "cannot reference value")) ∧
    (∀ (lhs argE : Expr) (name : String) (fs : List (String × GoVal))
        (vms pms : List (String × Nat)) (fid : Nat) (a : GoVal),
      vm.Eval ft lhs = .val (.vstruct fs vms pms) →
      alookup vms name = some fid →
      vm.Eval ft argE = .val a →
      (a = .vptrNil ∨ a = .vifaceNil ∨ a = .vnil) →
      vm.Eval ft (.MethodCallExpr lhs name [argE]) =
        .errv .vnil "cannot reference value") ∧
    (∀ (ls : List Bool) (v : GoVal), isWrapper v = false → v ≠ .vnil →
      deref (wrapLayers ls v) = .ok v) := by
  refine ⟨?_, ?_, ?_⟩
  · intro lhs w hl hw
    refine ⟨?_, ?_, ?_⟩ <;> intro _ <;> try intro _
    all_goals
      rcases hw with rfl | rfl | rfl <;>
        simp [VM.Eval, hl, EvalRes.andThen, derefRes, deref]
  · intro lhs argE name fs vms pms fid a hl hm ha hnil
    rcases hnil with rfl | rfl | rfl <;>
      simp [VM.Eval, hl, EvalRes.andThen, derefRes, deref, methodByNameVal,
        hm, VM.evalArgsDeref, ha]
  · intro ls v hv hnn
    induction ls with
    | nil =>
      cases v <;> simp_all [isWrapper, wrapLayers, deref]
    | cons b ls ih =>
      cases b <;> simp [wrapLayers, deref, ih]

/-- Witness for C10: member access through a nil pointer errors with
`cannot reference value`; a double pointer-and-interface wrapping of a
struct strips to the struct. -/
theorem c10_deref_nil_witness :
    (VM.mk [("p", .vptrNil)]).Eval (fun _ _ => [])
      (.MemberExpr (.IdentExpr "p") "F") =
      .errv .vnil "cannot reference value" ∧
    deref (wrapLayers [true, false] (.vstruct [("F", .vint64 1)] [] [])) =
      .ok (.vstruct [("F", .vint64 1)] [] []) := by
  have h1 := ((c10_deref_nil (VM.mk [("p", .vptrNil)]) (fun _ _ => [])).1
    (.IdentExpr "p") .vptrNil rfl (Or.inl rfl)).1 "F"
  have h2 := (c10_deref_nil VM.New (fun _ _ => [])).2.2 [true, false]
    (.vstruct [("F", .vint64 1)] [] []) rfl (by simp)
  exact ⟨h1, h2⟩
